import Mathlib

/-!
# gee: the routing trie and the group/middleware engine

A shallow embedding of

* `gee-web/day3-router/gee/trie.go`: `node`, `matchChild`, `matchChildren`, `insert`, `search`;
* `gee-web/day7-panic-recover/gee/gee.go` (and the identical parts of
  `gee-web/day5-middleware/gee/gee.go`): `RouterGroup`, `Engine`, `New`, `Default`, `Group`,
  `addRoute`, `GET`, `POST`, `Use`, `ServeHTTP`;
* the handler chain driver (`Context.Next`), which is not among the sources and is modelled
  from sections 4.5 and 9 of the specification.

Conventions.

* Go strings are modelled by Lean strings.  The only byte-level operations of the source are
  the test of the first byte against `':'` and `'*'` and `strings.HasPrefix`; on well-formed
  UTF-8 both agree with the same operation on characters.
* A Go run-time panic (index out of range) is the outer `none` of an `Option`.
* `*node` results: `nil` is `none`, a node pointer is the node it points to.  The trie is a tree
  whose nodes are owned by their parent, so in-place mutation through the child pointer is
  modelled by rebuilding the parent with the updated child at the same position.
* `*RouterGroup` pointers are positions in `Engine.groups`: every group is appended to that
  list when it is created and is never removed, and the engine's own group is position `0`.
-/

namespace Gee

/-! ## trie.go -/

/-- The `node` struct of trie.go: `pattern`, `part`, `children`, `isWild`. -/
inductive node where
  | mk (pattern : String) (part : String) (children : List node) (isWild : Bool)

namespace node

/-- Field `pattern`. -/
def pattern : node → String
  | mk p _ _ _ => p

/-- Field `part`. -/
def part : node → String
  | mk _ p _ _ => p

/-- Field `children`. -/
def children : node → List node
  | mk _ _ cs _ => cs

/-- Field `isWild`. -/
def isWild : node → Bool
  | mk _ _ _ w => w

end node

/-- Go `strings.HasPrefix(s, pre)`. -/
def HasPrefix (s pre : String) : Bool :=
  pre.data.isPrefixOf s.data

/-- The test `child.part == part || child.isWild` shared by `matchChild` and `matchChildren`. -/
def matchesPart (part : String) (child : node) : Bool :=
  child.part == part || child.isWild

/-- Go `(n *node) matchChild(part)`: the first child that matches, or `nil`. -/
def node.matchChild (n : node) (part : String) : Option node :=
  n.children.find? (matchesPart part)

/-- Go `(n *node) matchChildren(part)`: all children that match, in order. -/
def node.matchChildren (n : node) (part : String) : List node :=
  n.children.filter (matchesPart part)

/-- The effect on the children slice of mutating, through its pointer, the first child
that satisfies `p`: that child is replaced by its updated value `c'`. -/
def replaceFirst (p : node → Bool) (c' : node) : List node → List node
  | [] => []
  | c :: cs => if p c then c' :: cs else c :: replaceFirst p c' cs

/-- Go `(n *node) insert(pattern, parts, height)` with an explicit recursion budget.
`parts[height]` and `part[0]` panic when out of range. -/
def insertFuel (pattern : String) (parts : List String) : Nat → node → Nat → Option node
  | 0, _, _ => none
  | fuel + 1, n, height =>
    if parts.length = height then
      some (node.mk pattern n.part n.children n.isWild)
    else
      match parts[height]? with
      | none => none
      | some part =>
        match n.matchChild part with
        | some child =>
          (insertFuel pattern parts fuel child (height + 1)).map fun child' =>
            node.mk n.pattern n.part (replaceFirst (matchesPart part) child' n.children) n.isWild
        | none =>
          match part.data.head? with
          | none => none
          | some b =>
            (insertFuel pattern parts fuel
                (node.mk "" part [] (b == ':' || b == '*')) (height + 1)).map fun child' =>
              node.mk n.pattern n.part (n.children ++ [child']) n.isWild

/-- Go `(n *node) insert(pattern, parts, height)`.  The recursion depth is at most
`len(parts) - height + 1`, which is the budget given to `insertFuel`
(see `insert_eq` for the recursion of the source without the budget). -/
def node.insert (n : node) (pattern : String) (parts : List String) (height : Nat) :
    Option node :=
  insertFuel pattern parts (parts.length - height + 1) n height

mutual
/-- Go `(n *node) search(parts, height)`.  Outer `none`: panic (`parts[height]` out of range);
`some none`: `nil`; `some (some m)`: the node found. -/
def node.search (parts : List String) : node → Nat → Option (Option node)
  | node.mk pattern part children isWild, height =>
    if parts.length = height ∨ HasPrefix part "*" = true then
      if pattern = "" then some none
      else some (some (node.mk pattern part children isWild))
    else
      match parts[height]? with
      | none => none
      | some p => searchChildren parts p children height
/-- The loop of `search` over `n.matchChildren(part)`, the filter fused into the loop:
children that do not match are skipped, the first non-nil result is returned. -/
def searchChildren (parts : List String) (p : String) :
    List node → Nat → Option (Option node)
  | [], _ => some none
  | c :: cs, height =>
    if matchesPart p c then
      match node.search parts c (height + 1) with
      | none => none
      | some (some r) => some (some r)
      | some none => searchChildren parts p cs height
    else searchChildren parts p cs height
end

/-- The loop `for _, child := range children { result := f(child); if result != nil
{ return result } }; return nil` of `search`, over an explicit list. -/
def firstResult (f : node → Option (Option node)) : List node → Option (Option node)
  | [] => some none
  | c :: cs =>
    match f c with
    | none => none
    | some (some r) => some (some r)
    | some none => firstResult f cs

/-- The empty root `&node{}` a trie starts from. -/
def emptyRoot : node := node.mk "" "" [] false

/-- A route as handed to `insert`: the pattern and its list of segments. -/
abbrev Route := String × List String

/-- Successive `insert(pattern, parts, 0)` calls on a root, in order. -/
def insertAll : node → List Route → Option node
  | n, [] => some n
  | n, r :: rs => (n.insert r.1 r.2 0).bind fun n' => insertAll n' rs

/-! ### Vocabulary of the trie statements -/

/-- The value `part[0] == ':' || part[0] == '*'` that `insert` gives to `isWild`
(false for the empty string, where the source panics instead). -/
def isWildPart (part : String) : Bool :=
  match part.data.head? with
  | none => false
  | some b => b == ':' || b == '*'

/-- A literal segment: non-empty and beginning with neither `':'` nor `'*'`. -/
def isLiteral (part : String) : Bool :=
  match part.data.head? with
  | none => false
  | some b => !(b == ':' || b == '*')

/-- A parameter segment `:name`. -/
def isParam (part : String) : Bool :=
  match part.data.head? with
  | none => false
  | some b => b == ':'

/-- A wildcard segment `*name`. -/
def isStar (part : String) : Bool :=
  match part.data.head? with
  | none => false
  | some b => b == '*'

/-- Segment-wise matching of a segment list against a path: a literal segment equals the
path segment at its position, a `:name` segment faces exactly one path segment, a `*name`
segment is final and faces the non-empty remainder; without a wildcard the lengths agree. -/
def segsMatch : List String → List String → Bool
  | [], [] => true
  | [], _ :: _ => false
  | _ :: _, [] => false
  | s :: ss, p :: ps =>
    if isStar s then ss.isEmpty
    else if isParam s then segsMatch ss ps
    else s == p && segsMatch ss ps

/-- The chain from a node down to one of its descendants: `Chain n ch m` holds when `m` is
reached from `n` through children whose `(part, isWild)` are listed, top down, in `ch`. -/
inductive Chain : node → List (String × Bool) → node → Prop
  | here (n : node) : Chain n [] n
  | child {n c m : node} {ch : List (String × Bool)} :
      c ∈ n.children → Chain c ch m → Chain n ((c.part, c.isWild) :: ch) m

/-- Every node strictly below `n` has a `(part, isWild)` pair with the property `Q`. -/
def AllBelow (Q : String × Bool → Prop) (n : node) : Prop :=
  ∀ ch m, Chain n ch m → ∀ x ∈ ch, Q x

/-- Every node strictly below `n` has `isWild` set exactly when its part begins with
`':'` or `'*'`. -/
def WildFlagsOK (n : node) : Prop :=
  AllBelow (fun x => x.2 = isWildPart x.1) n

/-- No node strictly below `n` is wild. -/
def NoWildBelow (n : node) : Prop :=
  AllBelow (fun x => x.2 = false) n

/-- The route `segs` is in place below `n`: following, segment by segment, the first child that
`matchChild` selects leads through non-wild children whose parts are the segments, to a node
stamped `pat`. -/
def InPlace : node → List String → String → Prop
  | n, [], pat => n.pattern = pat
  | n, s :: ss, pat =>
    ∃ c, n.matchChild s = some c ∧ c.isWild = false ∧ c.part = s ∧ InPlace c ss pat

/-- The trie below a fresh node after one route has gone through it: a single line of nodes,
one per segment, the last one stamped. -/
def lineTrie (pattern part : String) (w : Bool) : List String → node
  | [] => node.mk pattern part [] w
  | s :: ss => node.mk "" part [lineTrie pattern s (isWildPart s) ss] w

/-- Go `strings.Split(s, "/")` on the characters of `s`. -/
def splitSlash : List Char → List (List Char)
  | [] => [[]]
  | c :: cs =>
    if c = '/' then [] :: splitSlash cs
    else
      match splitSlash cs with
      | [] => [[c]]
      | x :: xs => (c :: x) :: xs

/-- Modelled from the spec: `parsePattern` of router.go, which is not among the sources.
The spec (section 4.2) says the route table "splits `pattern` on `/` (ignoring empty
segments ...)" before it calls `insert`; this is the segment list of a pattern. -/
def parsePattern (pattern : String) : List String :=
  ((splitSlash pattern.data).filter fun seg => !seg.isEmpty).map String.mk

/-- The trie position `ch` (parts and wild flags of the nodes from the root down) is one that
an `insert` of the segment list `segs` ends at: at every depth the node's part is the segment,
or the node is wild and was taken for whatever the segment is. -/
def LandsAt (ch : List (String × Bool)) (segs : List String) : Prop :=
  List.Forall₂ (fun x s => x.1 = s ∨ x.2 = true) ch segs

/-- Every stamped node of the trie carries the pattern of a route of `routes` whose
insertion ended at that node. -/
def Provenance (routes : List Route) (n : node) : Prop :=
  ∀ ch m, Chain n ch m → m.pattern ≠ "" → ∃ r ∈ routes, r.1 = m.pattern ∧ LandsAt ch r.2

/-- In a segment list a `*name` segment stands last or not at all. -/
def starOnlyLast : List String → Bool
  | [] => true
  | [_] => true
  | s :: t :: ss => !isStar s && starOnlyLast (t :: ss)

/-- A chain `n = n0, n1, ..., nk` on which `search` of the path succeeds, given by the
positions of the nodes in the children lists: `ni` is the child of `n(i-1)` at position
`is[i-1]` and matches the `i`-th path segment, no node before `nk` has a part beginning with
`'*'`, `nk = m` has a non-empty pattern, and the path is used up at `nk` or the part of `nk`
begins with `'*'`. -/
inductive ValidChain : node → List String → List Nat → node → Prop
  | stop (n : node) (ps : List String) :
      n.pattern ≠ "" → (ps = [] ∨ HasPrefix n.part "*" = true) → ValidChain n ps [] n
  | step {n c m : node} {p : String} {ps : List String} {i : Nat} {is : List Nat} :
      HasPrefix n.part "*" = false → n.children[i]? = some c → matchesPart p c = true →
      ValidChain c ps is m → ValidChain n (p :: ps) (i :: is) m

/-- Lexicographic order of chains of child positions: `lexLe is js` when `is` comes first in
child-list order, or is `js`. -/
def lexLe : List Nat → List Nat → Bool
  | [], _ => true
  | _ :: _, [] => false
  | i :: is, j :: js => decide (i < j) || (i == j && lexLe is js)

/-- The `(part, isWild)` pairs of a children list, in order. -/
def labels (cs : List node) : List (String × Bool) :=
  cs.map fun c => (c.part, c.isWild)

/-- The shape of a children list: the parts are pairwise distinct, no child but the last is
wild (so at most one child is wild, and it is the last), and a child is wild exactly when
its part begins with `':'` or `'*'`. -/
def SiblingsOK (cs : List node) : Prop :=
  ((labels cs).map Prod.fst).Nodup ∧ (∀ x ∈ (labels cs).dropLast, x.2 = false) ∧
    ∀ x ∈ labels cs, x.2 = isWildPart x.1

/-- Every node of the trie, the root included, has a children list of that shape. -/
inductive WellFormed : node → Prop
  | mk (n : node) : SiblingsOK n.children → (∀ c ∈ n.children, WellFormed c) → WellFormed n

/-- The pattern of the node a `search` returned; `none` for `nil`. -/
def resPattern : Option (Option node) → Option String
  | some (some m) => some m.pattern
  | _ => none

/-- The map a sequence of `insert` calls stands for: the pattern of the most recent call
whose segment list is `q`, if there is one. -/
def mostRecent : List Route → List String → Option String
  | [], _ => none
  | r :: rs, q =>
    match mostRecent rs q with
    | some pat => some pat
    | none => if r.2 = q then some r.1 else none

mutual
/-- The patterns of all the nodes of a trie, the root first. -/
def allPatterns : node → List String
  | node.mk pattern _ children _ => pattern :: allPatternsList children
/-- The patterns of all the nodes of the tries of a list. -/
def allPatternsList : List node → List String
  | [] => []
  | c :: cs => allPatterns c ++ allPatternsList cs
end

/-- The descent of `insert` for the segment list `segs` in the trie `n` takes no wild child
for a segment other than the child's own part: every child that `matchChild` returns on the
way has the segment as its part. -/
def exactPath : node → List String → Bool
  | _, [] => true
  | n, s :: ss =>
    match n.matchChild s with
    | some c => c.part == s && exactPath c ss
    | none => true

/-- Every call of a sequence of `insert` calls descends as `exactPath` says, in the trie it
is made on. -/
def exactAll : node → List Route → Bool
  | _, [] => true
  | n, r :: rs =>
    exactPath n r.2 &&
      match n.insert r.1 r.2 0 with
      | some n' => exactAll n' rs
      | none => true

/-- The route `segs` has its own node below `n`: following, segment by segment, the child
that `matchChild` selects leads through children whose parts are the segments, to a node
stamped `pat`. -/
def ExactAt : node → List String → String → Prop
  | n, [], pat => n.pattern = pat
  | n, s :: ss, pat => ∃ c, n.matchChild s = some c ∧ c.part = s ∧ ExactAt c ss pat

/-! ## gee.go -/

/-- The `RouterGroup` struct.  `pfx` is the field `prefix`; `parent` is the position of the
parent group in `Engine.groups` (`none` for the engine's own group, whose `parent` is nil).
The `engine` back-pointer is the engine the group is stored in. -/
structure RouterGroup (HandlerFunc : Type) where
  pfx : String
  middlewares : List HandlerFunc
  parent : Option Nat
deriving DecidableEq

/-- The `Engine` struct.  The embedded `*RouterGroup` is `groups[0]`.  The route table
(`router.go`, not part of the sources) is represented by the list of the argument triples
`(method, pattern, handler)` passed to `router.addRoute`, oldest first. -/
structure Engine (HandlerFunc : Type) where
  router : List (String × String × HandlerFunc)
  groups : List (RouterGroup HandlerFunc)
deriving DecidableEq

variable {HandlerFunc : Type}

/-- Go `New()`. -/
def New : Engine HandlerFunc :=
  { router := [], groups := [{ pfx := "", middlewares := [], parent := none }] }

/-- Go `(g *RouterGroup) Group(prefix)`: the engine with the new group appended, and the
position of the new group.  `none` when `g` is not a group of the engine. -/
def Engine.Group (e : Engine HandlerFunc) (g : Nat) (suffix : String) :
    Option (Engine HandlerFunc × Nat) :=
  match e.groups[g]? with
  | none => none
  | some grp =>
    some ({ e with groups := e.groups ++ [{ pfx := grp.pfx ++ suffix, middlewares := [],
                                            parent := some g }] },
          e.groups.length)

/-- Go `(g *RouterGroup) addRoute(method, comp, handler)`. -/
def Engine.addRoute (e : Engine HandlerFunc) (g : Nat) (method comp : String)
    (handler : HandlerFunc) : Option (Engine HandlerFunc) :=
  match e.groups[g]? with
  | none => none
  | some grp => some { e with router := e.router ++ [(method, grp.pfx ++ comp, handler)] }

/-- Go `(g *RouterGroup) GET(pattern, handler)`. -/
def Engine.GET (e : Engine HandlerFunc) (g : Nat) (pattern : String)
    (handler : HandlerFunc) : Option (Engine HandlerFunc) :=
  e.addRoute g "GET" pattern handler

/-- Go `(g *RouterGroup) POST(pattern, handler)`. -/
def Engine.POST (e : Engine HandlerFunc) (g : Nat) (pattern : String)
    (handler : HandlerFunc) : Option (Engine HandlerFunc) :=
  e.addRoute g "POST" pattern handler

/-- Go `(g *RouterGroup) Use(middlewares...)`. -/
def Engine.Use (e : Engine HandlerFunc) (g : Nat) (middlewares : List HandlerFunc) :
    Option (Engine HandlerFunc) :=
  match e.groups[g]? with
  | none => none
  | some grp =>
    some { e with groups := e.groups.set g { grp with middlewares := grp.middlewares ++ middlewares } }

/-- Go `Default()`.  `Logger()` and `Recovery()` are defined outside the sources; the two
handlers they return are parameters. -/
def Default (logger recovery : HandlerFunc) : Option (Engine HandlerFunc) :=
  (New : Engine HandlerFunc).Use 0 [logger, recovery]

/-- Go `(e *Engine) ServeHTTP`: the slice stored in `c.handlers` before `e.router.handle(c)`
is called, for a request whose `req.URL.Path` is `path`. -/
def Engine.ServeHTTP (e : Engine HandlerFunc) (path : String) : List HandlerFunc :=
  e.groups.foldl
    (fun middlewares group =>
      if HasPrefix path group.pfx then middlewares ++ group.middlewares else middlewares)
    []

/-- A registration call made on the group at position `g`. -/
inductive Call (HandlerFunc : Type) where
  | group (g : Nat) (suffix : String)
  | use (g : Nat) (middlewares : List HandlerFunc)
  | addRoute (g : Nat) (method comp : String) (handler : HandlerFunc)
  | get (g : Nat) (pattern : String) (handler : HandlerFunc)
  | post (g : Nat) (pattern : String) (handler : HandlerFunc)

/-- The engine after one registration call. -/
def Engine.call (e : Engine HandlerFunc) : Call HandlerFunc → Option (Engine HandlerFunc)
  | Call.group g suffix => (e.Group g suffix).map Prod.fst
  | Call.use g mws => e.Use g mws
  | Call.addRoute g method comp h => e.addRoute g method comp h
  | Call.get g pattern h => e.GET g pattern h
  | Call.post g pattern h => e.POST g pattern h

/-- The engine after a sequence of registration calls. -/
def Engine.calls : Engine HandlerFunc → List (Call HandlerFunc) → Option (Engine HandlerFunc)
  | e, [] => some e
  | e, c :: cs => (e.call c).bind fun e' => e'.calls cs

/-- The handlers registered on the engine's own group by the `Use` calls of a sequence. -/
def rootUses : List (Call HandlerFunc) → List HandlerFunc
  | [] => []
  | Call.use g mws :: cs => (if g = 0 then mws else []) ++ rootUses cs
  | _ :: cs => rootUses cs

/-- The chain `start.Group(p1).Group(p2)...Group(pk)`, other registration calls being made
after each `Group`: `steps` lists each suffix with the calls that follow it.  The result is
the final engine and the position of the innermost group. -/
def nestGroups : Engine HandlerFunc → Nat → List (String × List (Call HandlerFunc)) →
    Option (Engine HandlerFunc × Nat)
  | e, g, [] => some (e, g)
  | e, g, (suffix, cs) :: rest =>
    match e.Group g suffix with
    | none => none
    | some (e1, g1) =>
      match e1.calls cs with
      | none => none
      | some e2 => nestGroups e2 g1 rest

/-- The concatenation `p1 + p2 + ... + pk`. -/
def concatAll : List String → String
  | [] => ""
  | p :: ps => p ++ concatAll ps

/-- Group `a` is an ancestor of group `g`: it is reached from `g` by following the `parent`
links, one or more times. -/
inductive IsAncestor (e : Engine HandlerFunc) : Nat → Nat → Prop
  | parent {a g : Nat} {grp : RouterGroup HandlerFunc} :
      e.groups[g]? = some grp → grp.parent = some a → IsAncestor e a g
  | step {a b g : Nat} {grp : RouterGroup HandlerFunc} :
      e.groups[g]? = some grp → grp.parent = some b → IsAncestor e a b → IsAncestor e a g

/-- Every group with a parent comes after its parent in the group list and has a prefix that
begins with the parent's prefix. -/
def WellNested (e : Engine HandlerFunc) : Prop :=
  ∀ (i : Nat) (grp : RouterGroup HandlerFunc) (p : Nat), e.groups[i]? = some grp →
    grp.parent = some p →
      p < i ∧ ∃ pg, e.groups[p]? = some pg ∧ pg.pfx.data <+: grp.pfx.data

/-! ## context.go (not among the sources): the handler chain -/

/-- Modelled from the spec: what a handler does, as far as the chain of section 4.5 is
concerned.  A handler has "full access to the shared Context"; of what it does, the chain
sees the calls of the chain-advance primitive `Next`, and the statements are about the events
it records in between. -/
inductive Step (Event : Type) where
  | record (e : Event)
  | next

/-- Modelled from the spec: a handler function, as the sequence of steps it performs when it
is invoked. -/
abbrev Handler (Event : Type) := List (Step Event)

/-- Modelled from the spec: the Dispatch Context of section 3, with "the resolved handler
chain (ordered sequence, immutable once set)".  `events` is what the handlers have recorded,
`invoked` the positions of the handlers invoked so far, in order.  The execution cursor is
the position handed to each handler call (see `invoke`). -/
structure Context (Event : Type) where
  handlers : List (Handler Event)
  events : List Event
  invoked : List Nat

variable {Event : Type}

/-- Modelled from the spec: the run of a handler body, `next` being what a call of `Next`
does to the context; "control returns to the caller of `Next` once that downstream
invocation (and everything it triggers) completes". -/
def runSteps (next : Context Event → Context Event) :
    Handler Event → Context Event → Context Event
  | [], c => c
  | Step.record e :: rest, c => runSteps next rest { c with events := c.events ++ [e] }
  | Step.next :: rest, c => runSteps next rest (next c)

/-- Modelled from the spec: the invocation of the handler at the cursor position `i`.  The
cursor is handed to each handler call (section 9: each handler call takes an explicit
continue function or cursor object): a `Next` call made by the handler at position `i`
"increments the cursor and invokes the handler at the new index" `i + 1`, control returning
to the caller afterwards, and "calling `Next` past the end of the chain is a no-op".  The
first argument bounds the depth of nested `Next` calls, which never exceeds the number of
handlers from the cursor on (`invoke_budget`). -/
def invoke : Nat → Nat → Context Event → Context Event
  | 0, _, c => c
  | budget + 1, i, c =>
    match c.handlers[i]? with
    | none => c
    | some h => runSteps (invoke budget (i + 1)) h { c with invoked := c.invoked ++ [i] }

/-- Modelled from the spec: the execution driver of section 4.5, "execution starts at
index 0", on the chain handed over by the engine. -/
def dispatch (handlers : List (Handler Event)) : Context Event :=
  invoke handlers.length 0 { handlers := handlers, events := [], invoked := [] }

/-- The chain of the onion: each middleware records its first event, calls `Next` once and
records its second event; the route handler records its event. -/
def onion (ms : List (Event × Event)) (h : Event) : List (Handler Event) :=
  (ms.map fun m => [Step.record m.1, Step.next, Step.record m.2]) ++ [[Step.record h]]

/-! ## Theorems -/

/-- Induction over the trie: a property holds of every node when it holds of a node as soon
as it holds of all its children. -/
theorem node.induct {P : node → Prop}
    (h : ∀ pat part cs w, (∀ c ∈ cs, P c) → P (node.mk pat part cs w)) (n : node) : P n :=
  @node.rec P (fun cs => ∀ c ∈ cs, P c)
    (fun pat part cs w ih => h pat part cs w ih)
    (fun c hc => by cases hc)
    (fun c cs hc hcs d hd => by
      rcases List.mem_cons.mp hd with rfl | hd
      · exact hc
      · exact hcs d hd)
    n

/-! ### Unfolding `insert` and `search` -/

theorem insertFuel_shift (pattern s : String) (parts : List String) :
    ∀ (fuel : Nat) (n : node) (h : Nat),
      insertFuel pattern (s :: parts) fuel n (h + 1) = insertFuel pattern parts fuel n h := by
  intro fuel
  induction fuel with
  | zero => intro n h; rfl
  | succ fuel ih =>
    intro n h
    simp only [insertFuel, List.length_cons, Nat.add_right_cancel_iff, List.getElem?_cons_succ, ih]

theorem insert_shift (pattern s : String) (parts : List String) (n : node) (h : Nat) :
    n.insert pattern (s :: parts) (h + 1) = n.insert pattern parts h := by
  simp only [node.insert, List.length_cons, Nat.add_sub_add_right, insertFuel_shift]

/-- The recursion of the source, without the budget. -/
theorem insert_eq (n : node) (pattern : String) (parts : List String) (height : Nat) :
    n.insert pattern parts height =
      if parts.length = height then
        some (node.mk pattern n.part n.children n.isWild)
      else
        match parts[height]? with
        | none => none
        | some part =>
          match n.matchChild part with
          | some child =>
            (child.insert pattern parts (height + 1)).map fun child' =>
              node.mk n.pattern n.part (replaceFirst (matchesPart part) child' n.children) n.isWild
          | none =>
            match part.data.head? with
            | none => none
            | some b =>
              ((node.mk "" part [] (b == ':' || b == '*')).insert pattern parts
                  (height + 1)).map fun child' =>
                node.mk n.pattern n.part (n.children ++ [child']) n.isWild := by
  rcases Nat.lt_or_ge height parts.length with hlt | hge
  · have hfuel : parts.length - height + 1 = (parts.length - (height + 1) + 1) + 1 := by omega
    unfold node.insert
    rw [hfuel, insertFuel]
  · rcases Nat.eq_or_lt_of_le hge with heq | hgt
    · simp [node.insert, heq, insertFuel]
    · have hne : parts.length ≠ height := by omega
      have hnone : parts[height]? = none := List.getElem?_eq_none (by omega)
      simp [node.insert, insertFuel, hne, hnone]

theorem insert_nil (n : node) (pattern : String) :
    n.insert pattern [] 0 = some (node.mk pattern n.part n.children n.isWild) := by
  rw [insert_eq]; simp

theorem insert_cons (n : node) (pattern s : String) (ss : List String) :
    n.insert pattern (s :: ss) 0 =
      match n.matchChild s with
      | some child =>
        (child.insert pattern ss 0).map fun child' =>
          node.mk n.pattern n.part (replaceFirst (matchesPart s) child' n.children) n.isWild
      | none =>
        match s.data.head? with
        | none => none
        | some b =>
          ((node.mk "" s [] (b == ':' || b == '*')).insert pattern ss 0).map fun child' =>
            node.mk n.pattern n.part (n.children ++ [child']) n.isWild := by
  rw [insert_eq]
  simp only [List.length_cons, Nat.add_one_ne_zero, if_false, List.getElem?_cons_zero,
    insert_shift]

theorem searchChildren_eq_firstResult (parts : List String) (p : String) (h : Nat) :
    ∀ cs : List node,
      searchChildren parts p cs h
        = firstResult (fun c => c.search parts (h + 1)) (cs.filter (matchesPart p)) := by
  intro cs
  induction cs with
  | nil => simp [searchChildren, firstResult]
  | cons c cs ih =>
    by_cases hc : matchesPart p c = true
    · simp only [searchChildren, hc, if_true, List.filter_cons_of_pos, firstResult, ih]
    · rw [List.filter_cons_of_neg hc]
      simp [searchChildren, hc, ih]

/-- The body of the source `search`, with the loop over `matchChildren`. -/
theorem search_eq (n : node) (parts : List String) (height : Nat) :
    n.search parts height =
      if parts.length = height ∨ HasPrefix n.part "*" = true then
        if n.pattern = "" then some none else some (some n)
      else
        match parts[height]? with
        | none => none
        | some part =>
          firstResult (fun child => child.search parts (height + 1)) (n.matchChildren part) := by
  cases n with
  | mk pat part cs w =>
    simp only [node.search, node.part, node.pattern, node.matchChildren, node.children,
      searchChildren_eq_firstResult]

theorem firstResult_congr {f g : node → Option (Option node)} :
    ∀ cs : List node, (∀ c ∈ cs, f c = g c) → firstResult f cs = firstResult g cs := by
  intro cs
  induction cs with
  | nil => intro _; rfl
  | cons c cs ih =>
    intro h
    have hc := h c (List.mem_cons_self c cs)
    have hcs := ih (fun d hd => h d (List.mem_cons_of_mem c hd))
    simp only [firstResult, hc, hcs]

theorem search_shift (s : String) (parts : List String) (n : node) :
    ∀ h : Nat, n.search (s :: parts) (h + 1) = n.search parts h := by
  induction n using node.induct with
  | h pat part cs w ih =>
    intro h
    rw [search_eq, search_eq]
    simp only [List.length_cons, Nat.add_right_cancel_iff, List.getElem?_cons_succ]
    have hcongr : ∀ part0 : String,
        firstResult (fun child => child.search (s :: parts) (h + 1 + 1))
            ((node.mk pat part cs w).matchChildren part0)
          = firstResult (fun child => child.search parts (h + 1))
            ((node.mk pat part cs w).matchChildren part0) := by
      intro part0
      apply firstResult_congr
      intro c hc
      exact ih c (List.mem_of_mem_filter hc) (h + 1)
    simp only [hcongr]

theorem search_nil (n : node) :
    n.search [] 0 = if n.pattern = "" then some none else some (some n) := by
  rw [search_eq]; simp

theorem search_cons (n : node) (p : String) (ps : List String) :
    n.search (p :: ps) 0 =
      if HasPrefix n.part "*" = true then
        if n.pattern = "" then some none else some (some n)
      else
        firstResult (fun child => child.search ps 0) (n.matchChildren p) := by
  rw [search_eq]
  simp only [List.length_cons, Nat.add_one_ne_zero, false_or, List.getElem?_cons_zero,
    search_shift, Nat.zero_add]

/-! ### Results of `search` -/

theorem firstResult_some {f : node → Option (Option node)} {m : node} :
    ∀ cs : List node, firstResult f cs = some (some m) → ∃ c ∈ cs, f c = some (some m) := by
  intro cs
  induction cs with
  | nil => intro h; simp [firstResult] at h
  | cons c cs ih =>
    intro h
    rw [firstResult] at h
    split at h
    · cases h
    · next r hr =>
      simp only [Option.some.injEq] at h
      subst h
      exact ⟨c, List.mem_cons_self c cs, hr⟩
    · obtain ⟨d, hd, hfd⟩ := ih h
      exact ⟨d, List.mem_cons_of_mem c hd, hfd⟩

theorem firstResult_total {f : node → Option (Option node)} :
    ∀ cs : List node, (∀ c ∈ cs, ∃ r, f c = some r) → ∃ r, firstResult f cs = some r := by
  intro cs
  induction cs with
  | nil => intro _; exact ⟨none, rfl⟩
  | cons c cs ih =>
    intro h
    obtain ⟨r, hr⟩ := h c (List.mem_cons_self c cs)
    obtain ⟨r', hr'⟩ := ih (fun d hd => h d (List.mem_cons_of_mem c hd))
    cases r with
    | none => exact ⟨r', by simp [firstResult, hr, hr']⟩
    | some m => exact ⟨some m, by simp [firstResult, hr]⟩

/-- From height 0 `search` never panics. -/
theorem search_total (n : node) : ∀ ps : List String, ∃ r, n.search ps 0 = some r := by
  induction n using node.induct with
  | h pat part cs w ih =>
    intro ps
    cases ps with
    | nil => rw [search_nil]; split <;> exact ⟨_, rfl⟩
    | cons p ps =>
      rw [search_cons]
      split
      · split <;> exact ⟨_, rfl⟩
      · apply firstResult_total
        intro c hc
        exact ih c (List.mem_of_mem_filter hc) ps

/-- What a successful `search` went through: either it stopped at the node itself, or it
went into a matching child. -/
theorem search_some_cases (n m : node) (ps : List String) (h : n.search ps 0 = some (some m)) :
    (m = n ∧ n.pattern ≠ "" ∧ (ps = [] ∨ HasPrefix n.part "*" = true)) ∨
    (HasPrefix n.part "*" = false ∧
      ∃ p ps', ps = p :: ps' ∧ ∃ c ∈ n.children, matchesPart p c = true ∧
        c.search ps' 0 = some (some m)) := by
  cases ps with
  | nil =>
    rw [search_nil] at h
    split at h
    · cases h
    · next hp =>
      simp only [Option.some.injEq] at h
      exact Or.inl ⟨h.symm, hp, Or.inl rfl⟩
  | cons p ps' =>
    rw [search_cons] at h
    split at h
    · next hstar =>
      split at h
      · cases h
      · next hp =>
        simp only [Option.some.injEq] at h
        exact Or.inl ⟨h.symm, hp, Or.inr hstar⟩
    · next hstar =>
      obtain ⟨c, hc, hfc⟩ := firstResult_some _ h
      have hc' := List.mem_filter.mp hc
      exact Or.inr ⟨by simpa using hstar, p, ps', rfl, c, hc'.1, hc'.2, hfc⟩

theorem search_pattern_ne (n : node) : ∀ (ps : List String) (m : node),
    n.search ps 0 = some (some m) → m.pattern ≠ "" := by
  induction n using node.induct with
  | h pat part cs w ih =>
    intro ps m h
    rcases search_some_cases _ m ps h with ⟨rfl, hp, _⟩ | ⟨_, p, ps', _, c, hc, _, hfc⟩
    · exact hp
    · exact ih c hc ps' m hfc

/-- C4 (no partial match).  For every trie and every path, `search(path, 0)` returns `nil`
or a node whose pattern is not empty; a node without a stamped pattern is never returned.
For instance, with only `/a/b/c` inserted, searching `[a, b]` returns `nil`. -/
theorem search_nil_or_stamped (root : node) (path : List String) :
    (root.search path 0 = some none ∨
      ∃ m, root.search path 0 = some (some m) ∧ m.pattern ≠ "") ∧
    ((emptyRoot.insert "/a/b/c" ["a", "b", "c"] 0).bind fun t => t.search ["a", "b"] 0)
      = some none := by
  refine ⟨?_, rfl⟩
  obtain ⟨r, hr⟩ := search_total root path
  cases r with
  | none => exact Or.inl hr
  | some m => exact Or.inr ⟨m, hr, search_pattern_ne root path m hr⟩

/-! ### Segment kinds -/

theorem head_of_ne_empty {s : String} (h : s ≠ "") : ∃ b, s.data.head? = some b := by
  cases s with
  | mk data =>
    cases data with
    | nil => exact absurd rfl h
    | cons b bs => exact ⟨b, rfl⟩

theorem hasPrefix_star (s : String) : HasPrefix s "*" = isStar s := by
  cases s with
  | mk data =>
    cases data with
    | nil => rfl
    | cons b bs =>
      simp only [HasPrefix, isStar, List.head?_cons]
      show (('*' : Char) :: ([] : List Char)).isPrefixOf (b :: bs) = (b == '*')
      simp only [List.isPrefixOf, Bool.and_true]
      by_cases hb : b = '*'
      · subst hb; rfl
      · have h1 : ('*' == b) = false := by simpa using fun h => hb h.symm
        have h2 : (b == '*') = false := by simpa using hb
        rw [h1, h2]

theorem isLiteral_ne_empty {s : String} (h : isLiteral s = true) : s ≠ "" := by
  intro hs; subst hs; simp [isLiteral] at h

theorem isLiteral_not_wild {s : String} (h : isLiteral s = true) : isWildPart s = false := by
  unfold isLiteral at h
  unfold isWildPart
  split at h
  · cases h
  · next b hb => simpa using h

theorem isLiteral_not_star {s : String} (h : isLiteral s = true) : isStar s = false := by
  unfold isLiteral at h
  unfold isStar
  split at h
  · cases h
  · next b hb =>
    have h' : ¬ (b = ':' ∨ b = '*') := by simpa using h
    simpa using fun hb' => h' (Or.inr hb')

theorem isParam_ne_empty {s : String} (h : isParam s = true) : s ≠ "" := by
  intro hs; subst hs; simp [isParam] at h

theorem isParam_wild {s : String} (h : isParam s = true) : isWildPart s = true := by
  unfold isParam at h
  unfold isWildPart
  split at h
  · cases h
  · next b hb => simp [h]

theorem isParam_not_star {s : String} (h : isParam s = true) : isStar s = false := by
  unfold isParam at h
  unfold isStar
  split at h
  · cases h
  · next b hb =>
    have hb' : b = ':' := by simpa using h
    subst hb'
    rfl

theorem isStar_ne_empty {s : String} (h : isStar s = true) : s ≠ "" := by
  intro hs; subst hs; simp [isStar] at h

theorem isStar_wild {s : String} (h : isStar s = true) : isWildPart s = true := by
  unfold isStar at h
  unfold isWildPart
  split at h
  · cases h
  · next b hb => simp [h]

theorem parsePattern_ne_empty {pattern : String} (h : parsePattern pattern ≠ []) :
    pattern ≠ "" := by
  intro hp; subst hp; exact h rfl

/-! ### A single route in an empty trie -/

theorem lineTrie_part (pattern part : String) (w : Bool) (segs : List String) :
    (lineTrie pattern part w segs).part = part := by
  cases segs <;> rfl

theorem lineTrie_isWild (pattern part : String) (w : Bool) (segs : List String) :
    (lineTrie pattern part w segs).isWild = w := by
  cases segs <;> rfl

/-- Inserting a route of non-empty segments at a node without children builds the line. -/
theorem insert_fresh (pattern : String) : ∀ (segs : List String) (part : String) (w : Bool),
    (∀ s ∈ segs, s ≠ "") →
      (node.mk "" part [] w).insert pattern segs 0 = some (lineTrie pattern part w segs) := by
  intro segs
  induction segs with
  | nil => intro part w _; rw [insert_nil]; rfl
  | cons s ss ih =>
    intro part w hne
    obtain ⟨b, hb⟩ := head_of_ne_empty (hne s (List.mem_cons_self s ss))
    have hw : (b == ':' || b == '*') = isWildPart s := by simp [isWildPart, hb]
    rw [insert_cons]
    simp only [node.matchChild, node.children, List.find?_nil, hb, hw,
      ih s (isWildPart s) (fun x hx => hne x (List.mem_cons_of_mem s hx)), Option.map_some',
      node.pattern, node.part, node.isWild, List.nil_append, lineTrie]

theorem insert_emptyRoot (pattern : String) (segs : List String) (hne : ∀ s ∈ segs, s ≠ "") :
    emptyRoot.insert pattern segs 0 = some (lineTrie pattern "" false segs) :=
  insert_fresh pattern segs "" false hne

theorem firstResult_singleton (f : node → Option (Option node)) (c : node) :
    firstResult f [c] = f c := by
  rw [firstResult]
  split
  · next h => exact h.symm
  · next r h => exact h.symm
  · next h => rw [h]; rfl

theorem lineTrie_matches (pattern s p : String) (ss : List String) :
    matchesPart p (lineTrie pattern s (isWildPart s) ss) = (s == p || isWildPart s) := by
  simp only [matchesPart, lineTrie_part, lineTrie_isWild]

/-- Search in the line of a pattern made of literal and `:name` segments. -/
theorem lineTrie_search_param (pattern : String) (hpat : pattern ≠ "") :
    ∀ (segs : List String), (∀ s ∈ segs, isLiteral s = true ∨ isParam s = true) →
    ∀ (q : List String) (part : String) (w : Bool), isStar part = false →
      (List.Forall₂ (fun s p => isLiteral s = true → p = s) segs q →
        ∃ m, (lineTrie pattern part w segs).search q 0 = some (some m) ∧ m.pattern = pattern) ∧
      (¬ List.Forall₂ (fun s p => isLiteral s = true → p = s) segs q →
        (lineTrie pattern part w segs).search q 0 = some none) := by
  intro segs
  induction segs with
  | nil =>
    intro _ q part w hpart
    cases q with
    | nil =>
      refine ⟨fun _ => ⟨node.mk pattern part [] w, ?_, rfl⟩, fun h => absurd List.Forall₂.nil h⟩
      rw [search_nil]
      simp [lineTrie, node.pattern, hpat]
    | cons p ps =>
      refine ⟨fun h => (by cases h), fun _ => ?_⟩
      rw [search_cons]
      simp [lineTrie, node.part, hasPrefix_star, hpart, node.matchChildren, node.children,
        firstResult]
  | cons s ss ih =>
    intro hsegs q part w hpart
    have hs := hsegs s (List.mem_cons_self s ss)
    have hss : ∀ x ∈ ss, isLiteral x = true ∨ isParam x = true :=
      fun x hx => hsegs x (List.mem_cons_of_mem s hx)
    have hsstar : isStar s = false := by
      rcases hs with hs | hs
      · exact isLiteral_not_star hs
      · exact isParam_not_star hs
    cases q with
    | nil =>
      refine ⟨fun h => (by cases h), fun _ => ?_⟩
      rw [search_nil]
      simp [lineTrie, node.pattern]
    | cons p ps =>
      have hsearch : (lineTrie pattern part w (s :: ss)).search (p :: ps) 0
          = if (s == p || isWildPart s) = true then
              (lineTrie pattern s (isWildPart s) ss).search ps 0
            else some none := by
        rw [search_cons]
        have hp' : ¬ (HasPrefix (lineTrie pattern part w (s :: ss)).part "*" = true) := by
          rw [lineTrie_part, hasPrefix_star, hpart]; simp
        rw [if_neg hp']
        simp only [lineTrie, node.matchChildren, node.children, List.filter_cons,
          lineTrie_matches, List.filter_nil]
        by_cases hm : (s == p || isWildPart s) = true
        · rw [if_pos hm, if_pos hm, firstResult_singleton]
        · rw [if_neg hm, if_neg hm]; rfl
      obtain ⟨ih1, ih2⟩ := ih hss ps s (isWildPart s) hsstar
      rw [hsearch]
      constructor
      · intro hall
        cases hall with
        | cons hsp hrest =>
          have hm : (s == p || isWildPart s) = true := by
            rcases hs with hs | hs
            · simp [hsp hs]
            · simp [isParam_wild hs]
          rw [if_pos hm]
          exact ih1 hrest
      · intro hnall
        by_cases hm : (s == p || isWildPart s) = true
        · rw [if_pos hm]
          apply ih2
          intro hrest
          apply hnall
          refine List.Forall₂.cons ?_ hrest
          intro hlit
          have hnw := isLiteral_not_wild hlit
          rw [hnw] at hm
          exact (by simpa using hm : s = p).symm
        · rw [if_neg hm]

/-- Search in the line of a pattern made of literal segments and a final `*name`. -/
theorem lineTrie_search_star (pattern star : String) (hpat : pattern ≠ "")
    (hstar : isStar star = true) (rest : List String) (hrest : rest ≠ []) :
    ∀ (lits : List String), (∀ l ∈ lits, isLiteral l = true) →
    ∀ (part : String) (w : Bool), isStar part = false →
      ∃ m, (lineTrie pattern part w (lits ++ [star])).search (lits ++ rest) 0 = some (some m) ∧
        m.pattern = pattern ∧ m.part = star := by
  intro lits
  induction lits with
  | nil =>
    intro _ part w hpart
    cases rest with
    | nil => exact absurd rfl hrest
    | cons r rs =>
      refine ⟨node.mk pattern star [] (isWildPart star), ?_, rfl, rfl⟩
      simp only [List.nil_append]
      rw [search_cons]
      simp only [lineTrie, node.part, hasPrefix_star, hpart, node.matchChildren, node.children,
        List.filter_cons, matchesPart, node.isWild, isStar_wild hstar, Bool.or_true, if_true,
        List.filter_nil, firstResult_singleton]
      cases rs with
      | nil => rw [search_nil]; simp [node.pattern, hpat]
      | cons r' rs' =>
        rw [search_cons]
        simp [node.part, hasPrefix_star, hstar, node.pattern, hpat]
  | cons l ls ih =>
    intro hlits part w hpart
    have hl := hlits l (List.mem_cons_self l ls)
    obtain ⟨m, hm, hmp⟩ := ih (fun x hx => hlits x (List.mem_cons_of_mem l hx)) l (isWildPart l)
      (isLiteral_not_star hl)
    refine ⟨m, ?_, hmp⟩
    simp only [List.cons_append]
    rw [search_cons]
    simp only [lineTrie, node.part, hasPrefix_star, hpart, node.matchChildren, node.children,
      List.filter_cons, lineTrie_matches, beq_self_eq_true, Bool.true_or, if_true,
      List.filter_nil, firstResult_singleton]
    simpa using hm

/-- C3 (wildcard capture).  For every pattern whose segments are `k >= 0` literal segments
followed by one final `*name` segment, inserted alone into an empty root, and for every path
that begins with those literals and has at least one further segment, `search(path, 0)`
returns the node that carries the pattern (the `*name` node), however many segments remain. -/
theorem wildcard_capture (pattern : String) (lits : List String) (star : String)
    (rest : List String) (hsegs : parsePattern pattern = lits ++ [star])
    (hlits : ∀ l ∈ lits, isLiteral l = true) (hstar : isStar star = true) (hrest : rest ≠ []) :
    ∃ t, emptyRoot.insert pattern (lits ++ [star]) 0 = some t ∧
      ∃ m, t.search (lits ++ rest) 0 = some (some m) ∧ m.pattern = pattern ∧ m.part = star := by
  have hpat : pattern ≠ "" := parsePattern_ne_empty (by rw [hsegs]; simp)
  have hne : ∀ s ∈ lits ++ [star], s ≠ "" := by
    intro s hs
    rcases List.mem_append.mp hs with h | h
    · exact isLiteral_ne_empty (hlits s h)
    · rw [List.mem_singleton.mp h]; exact isStar_ne_empty hstar
  exact ⟨_, insert_emptyRoot pattern _ hne,
    lineTrie_search_star pattern star hpat hstar rest hrest lits hlits "" false rfl⟩

/-- C3, witness: `/static/*filepath` and the path `[static, css, a.css]`. -/
theorem wildcard_capture_witness :
    ∃ t, emptyRoot.insert "/static/*filepath" (["static"] ++ ["*filepath"]) 0 = some t ∧
      ∃ m, t.search (["static"] ++ ["css", "a.css"]) 0 = some (some m) ∧
        m.pattern = "/static/*filepath" ∧ m.part = "*filepath" :=
  wildcard_capture "/static/*filepath" ["static"] "*filepath" ["css", "a.css"]
    (by decide) (by decide) (by decide) (by decide)

/-- C2, counterexample: the empty pattern has no segments; inserted alone it is stamped on
the root, and the path without segments, which has the same number of segments and agrees at
every literal position, is answered `nil`. -/
theorem param_matching_counterexample :
    parsePattern "" = [] ∧
    (∀ s ∈ ([] : List String), isLiteral s = true ∨ isParam s = true) ∧
    emptyRoot.insert "" [] 0 = some emptyRoot ∧
    List.Forall₂ (fun s p => isLiteral s = true → p = s) ([] : List String) [] ∧
    emptyRoot.search [] 0 = some none :=
  ⟨rfl, by simp, rfl, List.Forall₂.nil, rfl⟩

/-- C2 (parameter matching), amended: for every non-empty pattern whose segments are each
either literal or a `:name` parameter, inserted alone into an empty root, and for every path
`q`: if `q` has the same number of segments as the pattern and agrees with it at every
literal position then `search(q, 0)` returns a node carrying that pattern; otherwise it
returns `nil`. -/
theorem param_matching (pattern : String) (segs q : List String) (hpat : pattern ≠ "")
    (hsegs : ∀ s ∈ segs, isLiteral s = true ∨ isParam s = true) :
    ∃ t, emptyRoot.insert pattern segs 0 = some t ∧
      (List.Forall₂ (fun s p => isLiteral s = true → p = s) segs q →
        ∃ m, t.search q 0 = some (some m) ∧ m.pattern = pattern) ∧
      (¬ List.Forall₂ (fun s p => isLiteral s = true → p = s) segs q →
        t.search q 0 = some none) := by
  have hne : ∀ s ∈ segs, s ≠ "" := by
    intro s hs
    rcases hsegs s hs with h | h
    · exact isLiteral_ne_empty h
    · exact isParam_ne_empty h
  exact ⟨_, insert_emptyRoot pattern segs hne,
    lineTrie_search_param pattern hpat segs hsegs q "" false rfl⟩

/-- C2, witness: `/p/:lang/doc` and the path `[p, go, doc]`. -/
theorem param_matching_witness :
    ∃ t, emptyRoot.insert "/p/:lang/doc" ["p", ":lang", "doc"] 0 = some t ∧
      (List.Forall₂ (fun s p => isLiteral s = true → p = s) ["p", ":lang", "doc"]
          ["p", "go", "doc"] →
        ∃ m, t.search ["p", "go", "doc"] 0 = some (some m) ∧ m.pattern = "/p/:lang/doc") ∧
      (¬ List.Forall₂ (fun s p => isLiteral s = true → p = s) ["p", ":lang", "doc"]
          ["p", "go", "doc"] →
        t.search ["p", "go", "doc"] 0 = some none) :=
  param_matching "/p/:lang/doc" ["p", ":lang", "doc"] ["p", "go", "doc"] (by decide)
    (by decide)

/-! ### Chains and insertion -/

theorem chain_cases {n m : node} {ch : List (String × Bool)} (h : Chain n ch m) :
    (ch = [] ∧ m = n) ∨
    ∃ c ch', c ∈ n.children ∧ ch = (c.part, c.isWild) :: ch' ∧ Chain c ch' m := by
  cases h with
  | here => exact Or.inl ⟨rfl, rfl⟩
  | child hc hch => exact Or.inr ⟨_, _, hc, rfl, hch⟩

theorem allBelow_iff (Q : String × Bool → Prop) (n : node) :
    AllBelow Q n ↔ ∀ c ∈ n.children, Q (c.part, c.isWild) ∧ AllBelow Q c := by
  constructor
  · intro h c hc
    refine ⟨h _ _ (Chain.child hc (Chain.here c)) _ (List.mem_cons_self _ _), ?_⟩
    intro ch m hch x hx
    exact h _ _ (Chain.child hc hch) x (List.mem_cons_of_mem _ hx)
  · intro h ch m hch x hx
    rcases chain_cases hch with ⟨rfl, _⟩ | ⟨c, ch', hc, rfl, hch'⟩
    · cases hx
    · rcases List.mem_cons.mp hx with rfl | hx'
      · exact (h c hc).1
      · exact (h c hc).2 _ _ hch' x hx'

theorem mem_replaceFirst {p : node → Bool} {c' c : node} :
    ∀ {cs : List node}, c ∈ replaceFirst p c' cs → c = c' ∨ c ∈ cs := by
  intro cs
  induction cs with
  | nil => intro h; cases h
  | cons d ds ih =>
    intro h
    rw [replaceFirst] at h
    split at h
    · rcases List.mem_cons.mp h with rfl | h
      · exact Or.inl rfl
      · exact Or.inr (List.mem_cons_of_mem _ h)
    · rcases List.mem_cons.mp h with rfl | h
      · exact Or.inr (List.mem_cons_self _ _)
      · rcases ih h with h | h
        · exact Or.inl h
        · exact Or.inr (List.mem_cons_of_mem _ h)

/-- The three ways an `insert` call can end at a node. -/
theorem insert_cases (n n' : node) (pattern : String) (segs : List String)
    (h : n.insert pattern segs 0 = some n') :
    (segs = [] ∧ n' = node.mk pattern n.part n.children n.isWild) ∨
    (∃ s ss child child', segs = s :: ss ∧ n.matchChild s = some child ∧
      child.insert pattern ss 0 = some child' ∧
      n' = node.mk n.pattern n.part (replaceFirst (matchesPart s) child' n.children) n.isWild) ∨
    (∃ s ss child', segs = s :: ss ∧ n.matchChild s = none ∧ s ≠ "" ∧
      (node.mk "" s [] (isWildPart s)).insert pattern ss 0 = some child' ∧
      n' = node.mk n.pattern n.part (n.children ++ [child']) n.isWild) := by
  cases segs with
  | nil =>
    rw [insert_nil] at h
    simp only [Option.some.injEq] at h
    exact Or.inl ⟨rfl, h.symm⟩
  | cons s ss =>
    rw [insert_cons] at h
    split at h
    · next child hchild =>
      cases hci : child.insert pattern ss 0 with
      | none => rw [hci] at h; cases h
      | some child' =>
        rw [hci] at h
        simp only [Option.map_some', Option.some.injEq] at h
        exact Or.inr (Or.inl ⟨s, ss, child, child', rfl, hchild, hci, h.symm⟩)
    · next hchild =>
      split at h
      · cases h
      · next b hb =>
        have hw : (b == ':' || b == '*') = isWildPart s := by simp [isWildPart, hb]
        rw [hw] at h
        have hs : s ≠ "" := by
          intro hs; subst hs; cases hb
        cases hci : (node.mk "" s [] (isWildPart s)).insert pattern ss 0 with
        | none => rw [hci] at h; cases h
        | some child' =>
          rw [hci] at h
          simp only [Option.map_some', Option.some.injEq] at h
          exact Or.inr (Or.inr ⟨s, ss, child', rfl, hchild, hs, hci, h.symm⟩)

/-- An `insert` call changes neither the part nor the wild flag of the node it is called on. -/
theorem insert_part_isWild (n n' : node) (pattern : String) (segs : List String)
    (h : n.insert pattern segs 0 = some n') : n'.part = n.part ∧ n'.isWild = n.isWild := by
  rcases insert_cases n n' pattern segs h with ⟨_, rfl⟩ | ⟨_, _, _, _, _, _, _, rfl⟩ |
    ⟨_, _, _, _, _, _, _, rfl⟩ <;> exact ⟨rfl, rfl⟩

/-- With non-empty segments `insert` completes (no panic), whatever the trie. -/
theorem insert_total (pattern : String) : ∀ (segs : List String) (n : node),
    (∀ s ∈ segs, s ≠ "") → ∃ n', n.insert pattern segs 0 = some n' := by
  intro segs
  induction segs with
  | nil => intro n _; exact ⟨_, insert_nil n pattern⟩
  | cons s ss ih =>
    intro n hne
    have hss : ∀ x ∈ ss, x ≠ "" := fun x hx => hne x (List.mem_cons_of_mem s hx)
    rw [insert_cons]
    split
    · next child _ =>
      obtain ⟨child', hc⟩ := ih child hss
      exact ⟨_, by rw [hc]; rfl⟩
    · obtain ⟨b, hb⟩ := head_of_ne_empty (hne s (List.mem_cons_self s ss))
      obtain ⟨child', hc⟩ := ih (node.mk "" s [] (b == ':' || b == '*')) hss
      exact ⟨_, by simp only [hb, hc]; rfl⟩

theorem matchChild_some {n c : node} {s : String} (h : n.matchChild s = some c) :
    c ∈ n.children ∧ matchesPart s c = true := by
  unfold node.matchChild at h
  exact ⟨List.mem_of_find?_eq_some h, List.find?_some h⟩

/-- A local property of all nodes below the root survives an `insert` whose segments, as
parts of new nodes, have the property. -/
theorem insert_allBelow (Q : String × Bool → Prop) (pattern : String) :
    ∀ (segs : List String) (n n' : node), (∀ s ∈ segs, Q (s, isWildPart s)) →
      AllBelow Q n → n.insert pattern segs 0 = some n' → AllBelow Q n' := by
  intro segs
  induction segs with
  | nil =>
    intro n n' _ hn h
    rw [insert_nil] at h
    simp only [Option.some.injEq] at h
    subst h
    rw [allBelow_iff] at hn ⊢
    exact hn
  | cons s ss ih =>
    intro n n' hQ hn h
    have hQss : ∀ x ∈ ss, Q (x, isWildPart x) := fun x hx => hQ x (List.mem_cons_of_mem s hx)
    rw [allBelow_iff] at hn
    rcases insert_cases n n' pattern (s :: ss) h with ⟨hnil, _⟩ |
      ⟨s', ss', child, child', hseg, hchild, hci, rfl⟩ | ⟨s', ss', child', hseg, _, _, hci, rfl⟩
    · cases hnil
    · cases hseg
      rw [allBelow_iff]
      intro c hc
      obtain ⟨hmem, _⟩ := matchChild_some hchild
      rcases mem_replaceFirst hc with rfl | hc
      · obtain ⟨hp, hw⟩ := insert_part_isWild child c pattern ss hci
        rw [hp, hw]
        exact ⟨(hn child hmem).1, ih child c hQss (hn child hmem).2 hci⟩
      · exact hn c hc
    · cases hseg
      rw [allBelow_iff]
      intro c hc
      rcases List.mem_append.mp hc with hc | hc
      · exact hn c hc
      · rw [List.mem_singleton] at hc
        subst hc
        obtain ⟨hp, hw⟩ := insert_part_isWild _ c pattern ss hci
        rw [hp, hw]
        refine ⟨hQ s (List.mem_cons_self s ss), ih _ c hQss ?_ hci⟩
        rw [allBelow_iff]
        intro d hd
        cases hd

/-- Where the nodes of the trie after an `insert` come from: a node was there before with the
same pattern, or it is the node the call ended at, or it is a new node without pattern. -/
theorem insert_chain (pattern : String) :
    ∀ (segs : List String) (n n' m' : node) (ch : List (String × Bool)),
      n.insert pattern segs 0 = some n' → Chain n' ch m' →
        (∃ m, Chain n ch m ∧ m'.pattern = m.pattern) ∨
        (m'.pattern = pattern ∧ LandsAt ch segs) ∨ m'.pattern = "" := by
  intro segs
  induction segs with
  | nil =>
    intro n n' m' ch h hch
    rw [insert_nil] at h
    simp only [Option.some.injEq] at h
    subst h
    rcases chain_cases hch with ⟨rfl, rfl⟩ | ⟨c, ch', hc, rfl, hch'⟩
    · exact Or.inr (Or.inl ⟨rfl, List.Forall₂.nil⟩)
    · exact Or.inl ⟨m', Chain.child hc hch', rfl⟩
  | cons s ss ih =>
    intro n n' m' ch h hch
    rcases insert_cases n n' pattern (s :: ss) h with ⟨hnil, _⟩ |
      ⟨s', ss', child, child', hseg, hchild, hci, rfl⟩ | ⟨s', ss', child', hseg, _, _, hci, rfl⟩
    · cases hnil
    · cases hseg
      obtain ⟨hmem, hmatch⟩ := matchChild_some hchild
      rcases chain_cases hch with ⟨rfl, rfl⟩ | ⟨c, ch', hc, rfl, hch'⟩
      · exact Or.inl ⟨n, Chain.here n, rfl⟩
      · rcases mem_replaceFirst hc with rfl | hc
        · obtain ⟨hp, hw⟩ := insert_part_isWild child c pattern ss hci
          rcases ih child c m' ch' hci hch' with ⟨m, hm, hpat⟩ | ⟨hpat, hland⟩ | hpat
          · rw [hp, hw]
            exact Or.inl ⟨m, Chain.child hmem hm, hpat⟩
          · refine Or.inr (Or.inl ⟨hpat, List.Forall₂.cons ?_ hland⟩)
            rw [hp, hw]
            simp only [matchesPart, Bool.or_eq_true, beq_iff_eq] at hmatch
            exact hmatch
          · exact Or.inr (Or.inr hpat)
        · exact Or.inl ⟨m', Chain.child hc hch', rfl⟩
    · cases hseg
      rcases chain_cases hch with ⟨rfl, rfl⟩ | ⟨c, ch', hc, rfl, hch'⟩
      · exact Or.inl ⟨n, Chain.here n, rfl⟩
      · rcases List.mem_append.mp hc with hc | hc
        · exact Or.inl ⟨m', Chain.child hc hch', rfl⟩
        · rw [List.mem_singleton] at hc
          subst hc
          obtain ⟨hp, hw⟩ := insert_part_isWild _ c pattern ss hci
          rcases ih _ c m' ch' hci hch' with ⟨m, hm, hpat⟩ | ⟨hpat, hland⟩ | hpat
          · rcases chain_cases hm with ⟨_, rfl⟩ | ⟨d, _, hd, _, _⟩
            · exact Or.inr (Or.inr hpat)
            · cases hd
          · refine Or.inr (Or.inl ⟨hpat, List.Forall₂.cons ?_ hland⟩)
            rw [hp]
            exact Or.inl rfl
          · exact Or.inr (Or.inr hpat)

theorem provenance_insert {routes : List Route} {n n' : node} (r : Route)
    (hn : Provenance routes n) (h : n.insert r.1 r.2 0 = some n') :
    Provenance (routes ++ [r]) n' := by
  intro ch m' hch hpat
  rcases insert_chain r.1 r.2 n n' m' ch h hch with ⟨m, hm, hmp⟩ | ⟨hmp, hland⟩ | hmp
  · obtain ⟨r0, hr0, hr0p, hland⟩ := hn ch m hm (by rw [← hmp]; exact hpat)
    exact ⟨r0, List.mem_append_left _ hr0, by rw [hmp]; exact hr0p, hland⟩
  · exact ⟨r, List.mem_append_right _ (List.mem_singleton_self r), hmp.symm, hland⟩
  · exact absurd hmp hpat

theorem provenance_insertAll : ∀ (rs done : List Route) (n t : node),
    Provenance done n → insertAll n rs = some t → Provenance (done ++ rs) t := by
  intro rs
  induction rs with
  | nil =>
    intro done n t hn h
    simp only [insertAll, Option.some.injEq] at h
    subst h
    simpa using hn
  | cons r rs ih =>
    intro done n t hn h
    rw [insertAll] at h
    cases hi : n.insert r.1 r.2 0 with
    | none => rw [hi] at h; cases h
    | some n' =>
      rw [hi] at h
      have := ih (done ++ [r]) n' t (provenance_insert r hn hi) h
      simpa using this

theorem insertAll_part : ∀ (rs : List Route) (n t : node),
    insertAll n rs = some t → t.part = n.part := by
  intro rs
  induction rs with
  | nil => intro n t h; simp only [insertAll, Option.some.injEq] at h; rw [h]
  | cons r rs ih =>
    intro n t h
    rw [insertAll] at h
    cases hi : n.insert r.1 r.2 0 with
    | none => rw [hi] at h; cases h
    | some n' =>
      rw [hi] at h
      rw [ih n' t h, (insert_part_isWild n n' r.1 r.2 hi).1]

theorem emptyRoot_chain {ch : List (String × Bool)} {m : node} (h : Chain emptyRoot ch m) :
    ch = [] ∧ m = emptyRoot := by
  rcases chain_cases h with h | ⟨c, _, hc, _, _⟩
  · exact h
  · cases hc

theorem wildFlagsOK_insertAll : ∀ (rs : List Route) (n t : node),
    WildFlagsOK n → insertAll n rs = some t → WildFlagsOK t := by
  intro rs
  induction rs with
  | nil =>
    intro n t hn h
    simp only [insertAll, Option.some.injEq] at h
    subst h
    exact hn
  | cons r rs ih =>
    intro n t hn h
    rw [insertAll] at h
    cases hi : n.insert r.1 r.2 0 with
    | none => rw [hi] at h; cases h
    | some n' =>
      rw [hi] at h
      exact ih n' t (insert_allBelow _ r.1 r.2 n n' (fun _ _ => rfl) hn hi) h

theorem isWildPart_eq (s : String) : isWildPart s = (isParam s || isStar s) := by
  unfold isWildPart isParam isStar
  split <;> rfl

/-- A successful `search` follows a chain of nodes whose parts match the path. -/
theorem search_chain (n : node) : ∀ (ps : List String) (m : node),
    WildFlagsOK n → isStar n.part = false → n.search ps 0 = some (some m) →
      ∃ ch, Chain n ch m ∧ segsMatch (ch.map Prod.fst) ps = true := by
  induction n using node.induct with
  | h pat part cs w ih =>
    intro ps m hflags hstar h
    rcases search_some_cases _ m ps h with ⟨rfl, _, hps | hs⟩ |
      ⟨_, p, ps', rfl, c, hc, hmatch, hfc⟩
    · subst hps
      exact ⟨[], Chain.here _, rfl⟩
    · rw [hasPrefix_star, hstar] at hs
      cases hs
    · have hflags' := (allBelow_iff _ _).mp hflags c hc
      by_cases hcs : isStar c.part = true
      · rcases search_some_cases c m ps' hfc with ⟨rfl, _, _⟩ | ⟨hns, _⟩
        · refine ⟨[(m.part, m.isWild)], Chain.child hc (Chain.here m), ?_⟩
          simp [segsMatch, hcs]
        · rw [hasPrefix_star, hcs] at hns
          cases hns
      · have hcs' : isStar c.part = false := by simpa using hcs
        obtain ⟨ch', hch', hm'⟩ := ih c hc ps' m hflags'.2 hcs' hfc
        refine ⟨(c.part, c.isWild) :: ch', Chain.child hc hch', ?_⟩
        simp only [List.map_cons, segsMatch, hcs', Bool.false_eq_true, if_false, hm']
        by_cases hcp : isParam c.part = true
        · simp [hcp]
        · have hw : c.isWild = false := by
            have := hflags'.1
            simp only [isWildPart_eq, hcs'] at this
            rw [this]
            simpa using hcp
          simp only [matchesPart, hw, Bool.or_false] at hmatch
          simp [hcp, hmatch]

/-- C5, counterexample: `/:x` then `/a` are inserted; the second call goes into the `:x` node
and stamps it `/a`.  Searching `[z]` returns that node, although the registered segment list
`[a]` of `/a` does not match `[z]`. -/
theorem match_soundness_counterexample :
    insertAll emptyRoot [("/:x", [":x"]), ("/a", ["a"])]
      = some (node.mk "" "" [node.mk "/a" ":x" [] true] false) ∧
    (node.mk "" "" [node.mk "/a" ":x" [] true] false).search ["z"] 0
      = some (some (node.mk "/a" ":x" [] true)) ∧
    (∀ r ∈ [("/:x", [":x"]), ("/a", ["a"])],
      r.1 ≠ "" ∧ (∀ s ∈ r.2, s ≠ "") ∧ starOnlyLast r.2 = true) ∧
    (∀ r ∈ [("/:x", [":x"]), ("/a", ["a"])],
      r.1 = (node.mk "/a" ":x" [] true).pattern → segsMatch r.2 ["z"] = false) :=
  ⟨rfl, rfl, by decide, by decide⟩

/-- C5 (match soundness), amended: for every trie built from an empty root by a sequence of
`insert` calls and every path, if `search(path, 0)` returns a node then the path matches,
segment-wise, the parts of the trie nodes on the chain from the root to that node (a literal
part equals the path segment at its position, a `:name` part faces exactly one path segment, a
final `*name` part faces the non-empty remainder, without a wildcard the lengths are equal),
each of these nodes being wild exactly when its part begins with `':'` or `'*'`; and the node's
pattern is one of the registered patterns, whose registered segment list has the length of
that chain and equals its parts at every node that is not wild. -/
theorem match_soundness (routes : List Route) (t m : node) (path : List String)
    (hbuild : insertAll emptyRoot routes = some t)
    (hsearch : t.search path 0 = some (some m)) :
    ∃ ch, Chain t ch m ∧ segsMatch (ch.map Prod.fst) path = true ∧
      (∀ x ∈ ch, x.2 = isWildPart x.1) ∧
      ∃ r ∈ routes, r.1 = m.pattern ∧ LandsAt ch r.2 := by
  have hflags0 : WildFlagsOK emptyRoot := by
    intro ch m0 hch x hx
    rw [(emptyRoot_chain hch).1] at hx
    cases hx
  have hprov0 : Provenance [] emptyRoot := by
    intro ch m0 hch hpat
    rw [(emptyRoot_chain hch).2] at hpat
    exact absurd rfl hpat
  have hflags := wildFlagsOK_insertAll routes emptyRoot t hflags0 hbuild
  have hprov := provenance_insertAll routes [] emptyRoot t hprov0 hbuild
  have hroot : isStar t.part = false := by
    rw [insertAll_part routes emptyRoot t hbuild]
    rfl
  obtain ⟨ch, hch, hmatch⟩ := search_chain t path m hflags hroot hsearch
  refine ⟨ch, hch, hmatch, hflags ch m hch, ?_⟩
  have := hprov ch m hch (search_pattern_ne t path m hsearch)
  simpa using this

/-- C5, witness: the trie of `/:x` then `/a`, searched for `[z]`. -/
theorem match_soundness_witness :
    ∃ ch, Chain (node.mk "" "" [node.mk "/a" ":x" [] true] false) ch (node.mk "/a" ":x" [] true) ∧
      segsMatch (ch.map Prod.fst) ["z"] = true ∧
      (∀ x ∈ ch, x.2 = isWildPart x.1) ∧
      ∃ r ∈ [("/:x", [":x"]), ("/a", ["a"])],
        r.1 = (node.mk "/a" ":x" [] true).pattern ∧ LandsAt ch r.2 :=
  match_soundness [("/:x", [":x"]), ("/a", ["a"])] _ _ ["z"] rfl rfl

/-! ### Routes that stay in place -/

theorem children_mk (pat part : String) (cs : List node) (w : Bool) :
    (node.mk pat part cs w).children = cs := rfl

theorem insertAll_append : ∀ (rs rs' : List Route) (n : node),
    insertAll n (rs ++ rs') = (insertAll n rs).bind fun n' => insertAll n' rs' := by
  intro rs
  induction rs with
  | nil => intro rs' n; rfl
  | cons r rs ih =>
    intro rs' n
    simp only [List.cons_append, insertAll]
    cases n.insert r.1 r.2 0 with
    | none => rfl
    | some n' => exact ih rs' n'

theorem insertAll_total : ∀ (rs : List Route) (n : node),
    (∀ r ∈ rs, ∀ s ∈ r.2, s ≠ "") → ∃ t, insertAll n rs = some t := by
  intro rs
  induction rs with
  | nil => intro n _; exact ⟨n, rfl⟩
  | cons r rs ih =>
    intro n hne
    obtain ⟨n', hn'⟩ := insert_total r.1 r.2 n (hne r (List.mem_cons_self r rs))
    obtain ⟨t, ht⟩ := ih n' (fun x hx => hne x (List.mem_cons_of_mem r hx))
    exact ⟨t, by rw [insertAll, hn']; exact ht⟩

theorem matchesPart_congr {c c' : node} (s : String) (hp : c'.part = c.part)
    (hw : c'.isWild = c.isWild) : matchesPart s c' = matchesPart s c := by
  simp only [matchesPart, hp, hw]

theorem find_replaceFirst_same {p : node → Bool} {c c' : node} (hc' : p c' = true) :
    ∀ {l : List node}, l.find? p = some c → (replaceFirst p c' l).find? p = some c' := by
  intro l
  induction l with
  | nil => intro h; cases h
  | cons x xs ih =>
    intro h
    by_cases hx : p x = true
    · simp only [replaceFirst, hx, if_true, List.find?_cons, hc']
    · have hx' : p x = false := by simpa using hx
      rw [List.find?_cons, hx'] at h
      simp only [replaceFirst, hx', Bool.false_eq_true, if_false, List.find?_cons]
      exact ih h

theorem find_replaceFirst_other {p q : node → Bool} {c d d' : node} (hd' : p d' = p d)
    (hqc : q c = false) :
    ∀ {l : List node}, l.find? q = some d → l.find? p = some c →
      (replaceFirst q d' l).find? p = some c := by
  intro l
  induction l with
  | nil => intro h; cases h
  | cons x xs ih =>
    intro hq hp
    by_cases hx : q x = true
    · rw [List.find?_cons, hx] at hq
      simp only [Option.some.injEq] at hq
      subst hq
      have hpx : p x = false := by
        by_contra hpx
        have hpx' : p x = true := by simpa using hpx
        rw [List.find?_cons, hpx'] at hp
        simp only [Option.some.injEq] at hp
        subst hp
        rw [hx] at hqc
        cases hqc
      rw [List.find?_cons, hpx] at hp
      simp only [replaceFirst, hx, if_true, List.find?_cons, hd', hpx]
      exact hp
    · have hx' : q x = false := by simpa using hx
      rw [List.find?_cons, hx'] at hq
      simp only [replaceFirst, hx', Bool.false_eq_true, if_false, List.find?_cons]
      by_cases hpx : p x = true
      · rw [List.find?_cons, hpx] at hp
        rw [hpx]
        exact hp
      · have hpx' : p x = false := by simpa using hpx
        rw [List.find?_cons, hpx'] at hp
        rw [hpx']
        exact ih hq hp

theorem find_filter_head {p : node → Bool} {c : node} :
    ∀ {l : List node}, l.find? p = some c → ∃ rest, l.filter p = c :: rest := by
  intro l
  induction l with
  | nil => intro h; cases h
  | cons x xs ih =>
    intro h
    by_cases hx : p x = true
    · rw [List.find?_cons, hx] at h
      simp only [Option.some.injEq] at h
      subst h
      exact ⟨xs.filter p, List.filter_cons_of_pos hx⟩
    · have hx' : p x = false := by simpa using hx
      rw [List.find?_cons, hx'] at h
      obtain ⟨rest, hrest⟩ := ih h
      exact ⟨rest, by rw [List.filter_cons_of_neg hx]; exact hrest⟩

/-- In a trie without wild nodes, a route of literal segments is in place once inserted. -/
theorem insert_inPlace_new (pattern : String) : ∀ (segs : List String) (n n' : node),
    NoWildBelow n → (∀ s ∈ segs, isLiteral s = true) → n.insert pattern segs 0 = some n' →
      InPlace n' segs pattern := by
  intro segs
  induction segs with
  | nil =>
    intro n n' _ _ h
    rw [insert_nil] at h
    simp only [Option.some.injEq] at h
    subst h
    rfl
  | cons s ss ih =>
    intro n n' hn hlit h
    have hs := hlit s (List.mem_cons_self s ss)
    have hss : ∀ x ∈ ss, isLiteral x = true := fun x hx => hlit x (List.mem_cons_of_mem s hx)
    have hn' := (allBelow_iff _ _).mp hn
    rcases insert_cases n n' pattern (s :: ss) h with ⟨hnil, _⟩ |
      ⟨s', ss', child, child', hseg, hchild, hci, rfl⟩ |
      ⟨s', ss', child', hseg, hnone, _, hci, rfl⟩
    · cases hnil
    · cases hseg
      obtain ⟨hmem, hmatch⟩ := matchChild_some hchild
      obtain ⟨hp, hw⟩ := insert_part_isWild child child' pattern ss hci
      have hcw : child.isWild = false := (hn' child hmem).1
      have hcp : child.part = s := by
        simpa [matchesPart, hcw] using hmatch
      refine ⟨child', ?_, by rw [hw, hcw], by rw [hp, hcp],
        ih child child' (hn' child hmem).2 hss hci⟩
      exact find_replaceFirst_same (by rw [matchesPart_congr s hp hw]; exact hmatch) hchild
    · cases hseg
      obtain ⟨hp, hw⟩ := insert_part_isWild _ child' pattern ss hci
      have hfresh : NoWildBelow (node.mk "" s [] (isWildPart s)) := by
        rw [NoWildBelow, allBelow_iff]
        intro d hd
        cases hd
      refine ⟨child', ?_, by rw [hw]; exact isLiteral_not_wild hs, by rw [hp]; rfl,
        ih _ child' hfresh hss hci⟩
      have hm : matchesPart s child' = true := by
        rw [matchesPart, hp]
        simp [node.part]
      unfold node.matchChild at hnone ⊢
      rw [children_mk, List.find?_append, hnone, List.find?_cons, hm]
      rfl

/-- A route in place stays in place when another route is inserted, unless that route has the
same segment list and another pattern. -/
theorem insert_inPlace_keep (pattern pattern2 : String) :
    ∀ (segs segs2 : List String) (n n' : node), InPlace n segs pattern →
      (segs2 = segs → pattern2 = pattern) → n.insert pattern2 segs2 0 = some n' →
        InPlace n' segs pattern := by
  intro segs
  induction segs with
  | nil =>
    intro segs2 n n' hin hsame h
    rcases insert_cases n n' pattern2 segs2 h with ⟨hnil, rfl⟩ |
      ⟨_, _, _, _, _, _, _, rfl⟩ | ⟨_, _, _, _, _, _, _, rfl⟩
    · exact hsame hnil
    · exact hin
    · exact hin
  | cons s ss ih =>
    intro segs2 n n' hin hsame h
    obtain ⟨c, hc, hcw, hcp, hcin⟩ := hin
    rcases insert_cases n n' pattern2 segs2 h with ⟨_, rfl⟩ |
      ⟨t, ts, d, d', rfl, hd, hdi, rfl⟩ | ⟨t, ts, d', rfl, hnone, _, hdi, rfl⟩
    · exact ⟨c, hc, hcw, hcp, hcin⟩
    · obtain ⟨hp, hw⟩ := insert_part_isWild d d' pattern2 ts hdi
      by_cases hct : matchesPart t c = true
      · have hts : t = s := by
          have : c.part = t := by simpa [matchesPart, hcw] using hct
          rw [← this, hcp]
        subst hts
        have hdc : d = c := by
          rw [hc] at hd
          exact (Option.some.inj hd).symm
        subst hdc
        refine ⟨d', ?_, by rw [hw, hcw], by rw [hp, hcp], ?_⟩
        · exact find_replaceFirst_same
            (by rw [matchesPart_congr t hp hw]; exact (matchChild_some hc).2) hc
        · exact ih ts d d' hcin (fun hts => hsame (by rw [hts])) hdi
      · have hct' : matchesPart t c = false := by simpa using hct
        refine ⟨c, ?_, hcw, hcp, hcin⟩
        exact find_replaceFirst_other (matchesPart_congr s hp hw) hct' hd hc
    · refine ⟨c, ?_, hcw, hcp, hcin⟩
      unfold node.matchChild at hc ⊢
      rw [children_mk, List.find?_append, hc]
      rfl

/-- A route in place is found by `search`. -/
theorem inPlace_search (pattern : String) (hpat : pattern ≠ "") :
    ∀ (segs : List String) (n : node), InPlace n segs pattern →
      (∀ s ∈ segs, isLiteral s = true) → isStar n.part = false →
        ∃ m, n.search segs 0 = some (some m) ∧ m.pattern = pattern := by
  intro segs
  induction segs with
  | nil =>
    intro n hin _ _
    have hin' : n.pattern = pattern := hin
    refine ⟨n, ?_, hin'⟩
    rw [search_nil, if_neg (by rw [hin']; exact hpat)]
  | cons s ss ih =>
    intro n hin hlit hstar
    obtain ⟨c, hc, _, hcp, hcin⟩ := hin
    have hs := hlit s (List.mem_cons_self s ss)
    obtain ⟨m, hm, hmp⟩ := ih c hcin (fun x hx => hlit x (List.mem_cons_of_mem s hx))
      (by rw [hcp]; exact isLiteral_not_star hs)
    refine ⟨m, ?_, hmp⟩
    obtain ⟨rest, hrest⟩ := find_filter_head hc
    rw [search_cons, if_neg (by rw [hasPrefix_star, hstar]; simp)]
    unfold node.matchChildren
    rw [hrest, firstResult, hm]

theorem noWild_insertAll : ∀ (rs : List Route) (n t : node), NoWildBelow n →
    (∀ r ∈ rs, ∀ s ∈ r.2, isLiteral s = true) → insertAll n rs = some t → NoWildBelow t := by
  intro rs
  induction rs with
  | nil =>
    intro n t hn _ h
    simp only [insertAll, Option.some.injEq] at h
    subst h
    exact hn
  | cons r rs ih =>
    intro n t hn hlit h
    rw [insertAll] at h
    cases hi : n.insert r.1 r.2 0 with
    | none => rw [hi] at h; cases h
    | some n' =>
      rw [hi] at h
      have hr := hlit r (List.mem_cons_self r rs)
      exact ih n' t
        (insert_allBelow _ r.1 r.2 n n' (fun s hs => isLiteral_not_wild (hr s hs)) hn hi)
        (fun x hx => hlit x (List.mem_cons_of_mem r hx)) h

theorem inPlace_insertAll (pattern : String) (segs : List String) :
    ∀ (rs : List Route) (n t : node), InPlace n segs pattern →
      (∀ r ∈ rs, r.2 = segs → r.1 = pattern) → insertAll n rs = some t →
        InPlace t segs pattern := by
  intro rs
  induction rs with
  | nil =>
    intro n t hn _ h
    simp only [insertAll, Option.some.injEq] at h
    subst h
    exact hn
  | cons r rs ih =>
    intro n t hn hsame h
    rw [insertAll] at h
    cases hi : n.insert r.1 r.2 0 with
    | none => rw [hi] at h; cases h
    | some n' =>
      rw [hi] at h
      exact ih n' t
        (insert_inPlace_keep pattern r.1 segs r.2 n n' hn (hsame r (List.mem_cons_self r rs)) hi)
        (fun x hx => hsame x (List.mem_cons_of_mem r hx)) h

/-- C1, counterexample: `/:x`, `/a`, `/c` are inserted in this order.  Both `/a` and `/c` go
into the `:x` node, which ends up stamped `/c`; searching `[a]`, the segments of the
all-literal route `/a`, returns the node with pattern `/c`. -/
theorem roundtrip_counterexample :
    insertAll emptyRoot [("/:x", [":x"]), ("/a", ["a"]), ("/c", ["c"])]
      = some (node.mk "" "" [node.mk "/c" ":x" [] true] false) ∧
    (node.mk "" "" [node.mk "/c" ":x" [] true] false).search ["a"] 0
      = some (some (node.mk "/c" ":x" [] true)) ∧
    (node.mk "/c" ":x" [] true).pattern ≠ "/a" ∧
    (∀ r ∈ [("/:x", [":x"]), ("/a", ["a"]), ("/c", ["c"])],
      r.1 ≠ "" ∧ ∀ s ∈ r.2, s ≠ "") ∧
    List.Pairwise (fun (a b : Route) => a.2 ≠ b.2)
      [("/:x", [":x"]), ("/a", ["a"]), ("/c", ["c"])] ∧
    (∀ s ∈ ["a"], isLiteral s = true) :=
  ⟨rfl, rfl, by decide, by decide, by decide, by decide⟩

theorem exactPath_leaf (pat part : String) (w : Bool) (segs : List String) :
    exactPath (node.mk pat part [] w) segs = true := by
  cases segs <;> rfl

theorem exactPath_cons_some {n c : node} {s : String} {ss : List String}
    (hc : n.matchChild s = some c) (h : exactPath n (s :: ss) = true) :
    c.part = s ∧ exactPath c ss = true := by
  simp only [exactPath, hc, Bool.and_eq_true, beq_iff_eq] at h
  exact h

/-- A route of literal segments is in place once inserted, when its descent takes no wild
child: every child that `matchChild` returns on the way has the segment as its part. -/
theorem insert_inPlace_exact (pattern : String) : ∀ (segs : List String) (n n' : node),
    WildFlagsOK n → (∀ s ∈ segs, isLiteral s = true) → exactPath n segs = true →
      n.insert pattern segs 0 = some n' → InPlace n' segs pattern := by
  intro segs
  induction segs with
  | nil =>
    intro n n' _ _ _ h
    rw [insert_nil] at h
    simp only [Option.some.injEq] at h
    subst h
    rfl
  | cons s ss ih =>
    intro n n' hn hlit hex h
    have hs := hlit s (List.mem_cons_self s ss)
    have hss : ∀ x ∈ ss, isLiteral x = true := fun x hx => hlit x (List.mem_cons_of_mem s hx)
    have hn' := (allBelow_iff _ _).mp hn
    rcases insert_cases n n' pattern (s :: ss) h with ⟨hnil, _⟩ |
      ⟨s', ss', child, child', hseg, hchild, hci, rfl⟩ |
      ⟨s', ss', child', hseg, hnone, _, hci, rfl⟩
    · cases hnil
    · cases hseg
      obtain ⟨hmem, hmatch⟩ := matchChild_some hchild
      obtain ⟨hp, hw⟩ := insert_part_isWild child child' pattern ss hci
      obtain ⟨hcp, hcex⟩ := exactPath_cons_some hchild hex
      have hcw : child.isWild = false := by
        have hflag : child.isWild = isWildPart child.part := (hn' child hmem).1
        rw [hflag, hcp]
        exact isLiteral_not_wild hs
      refine ⟨child', ?_, by rw [hw, hcw], by rw [hp, hcp],
        ih child child' (hn' child hmem).2 hss hcex hci⟩
      exact find_replaceFirst_same (by rw [matchesPart_congr s hp hw]; exact hmatch) hchild
    · cases hseg
      obtain ⟨hp, hw⟩ := insert_part_isWild _ child' pattern ss hci
      have hfresh : WildFlagsOK (node.mk "" s [] (isWildPart s)) := by
        rw [WildFlagsOK, allBelow_iff]
        intro d hd
        cases hd
      refine ⟨child', ?_, by rw [hw]; exact isLiteral_not_wild hs, by rw [hp]; rfl,
        ih _ child' hfresh hss (exactPath_leaf _ _ _ ss) hci⟩
      have hm : matchesPart s child' = true := by
        rw [matchesPart, hp]
        simp [node.part]
      unfold node.matchChild at hnone ⊢
      rw [children_mk, List.find?_append, hnone, List.find?_cons, hm]
      rfl

/-- C1 (insertion/search round-trip), amended: for every sequence of `insert` calls starting
from an empty root (non-empty patterns, non-empty segments, a route with the same segment
list having the same pattern), and for every route of the sequence whose segments are all
literal and whose own `insert` call descends into no `:name` or `*name` child (every
existing child it goes through has the segment as its part), `search(segments, 0)` on the
final trie returns a node whose pattern is that route's pattern.  The routes inserted before
and after it may have `:name` and `*name` segments. -/
theorem roundtrip_literal (before after : List Route) (pattern : String) (segs : List String)
    (t0 : node)
    (hne : ∀ r ∈ before ++ (pattern, segs) :: after, r.1 ≠ "" ∧ ∀ s ∈ r.2, s ≠ "")
    (hsame : ∀ r ∈ before ++ (pattern, segs) :: after, r.2 = segs → r.1 = pattern)
    (hsegs : ∀ s ∈ segs, isLiteral s = true)
    (ht0 : insertAll emptyRoot before = some t0)
    (hexact : exactPath t0 segs = true) :
    ∃ t, insertAll emptyRoot (before ++ (pattern, segs) :: after) = some t ∧
      ∃ m, t.search segs 0 = some (some m) ∧ m.pattern = pattern := by
  have hmem : ∀ r ∈ after, r ∈ before ++ (pattern, segs) :: after := fun r hr =>
    List.mem_append_right _ (List.mem_cons_of_mem _ hr)
  have hroot : WildFlagsOK emptyRoot := by
    intro ch m0 hch x hx
    rw [(emptyRoot_chain hch).1] at hx
    cases hx
  have hflags := wildFlagsOK_insertAll before emptyRoot t0 hroot ht0
  obtain ⟨t1, ht1⟩ := insert_total pattern segs t0
    (hne (pattern, segs) (List.mem_append_right _ (List.mem_cons_self _ _))).2
  have hin1 := insert_inPlace_exact pattern segs t0 t1 hflags hsegs hexact ht1
  obtain ⟨t, ht⟩ := insertAll_total after t1 (fun r hr => (hne r (hmem r hr)).2)
  have hin := inPlace_insertAll pattern segs after t1 t hin1 (fun r hr => hsame r (hmem r hr)) ht
  have hall : insertAll emptyRoot (before ++ (pattern, segs) :: after) = some t := by
    rw [insertAll_append, ht0]
    show insertAll t0 ((pattern, segs) :: after) = some t
    rw [insertAll]
    show (t0.insert pattern segs 0).bind (fun n' => insertAll n' after) = some t
    rw [ht1]
    exact ht
  have hpart : isStar t.part = false := by
    rw [insertAll_part _ emptyRoot t hall]
    rfl
  exact ⟨t, hall, inPlace_search pattern
    (hne (pattern, segs) (List.mem_append_right _ (List.mem_cons_self _ _))).1 segs t hin hsegs
    hpart⟩

/-- C1, witness: `/about` inserted after `/hello/:name` and before `/:p/y`, searched as
`[about]`; its call creates the child `about` of the root. -/
theorem roundtrip_literal_witness :
    exactPath (node.mk "" "" [node.mk "" "hello" [node.mk "/hello/:name" ":name" [] true]
        false] false) ["about"] = true ∧
    ∃ t, insertAll emptyRoot ([("/hello/:name", ["hello", ":name"])] ++ ("/about", ["about"]) ::
        [("/:p/y", [":p", "y"])]) = some t ∧
      ∃ m, t.search ["about"] 0 = some (some m) ∧ m.pattern = "/about" :=
  ⟨rfl, roundtrip_literal [("/hello/:name", ["hello", ":name"])] [("/:p/y", [":p", "y"])]
    "/about" ["about"]
    (node.mk "" "" [node.mk "" "hello" [node.mk "/hello/:name" ":name" [] true] false] false)
    (by decide) (by decide) (by decide) rfl rfl⟩

/-! ### The engine: which middlewares `ServeHTTP` collects -/

theorem hasPrefix_iff (s pre : String) : HasPrefix s pre = true ↔ pre.data <+: s.data :=
  List.isPrefixOf_iff_prefix

theorem hasPrefix_empty (s : String) : HasPrefix s "" = true := by
  rw [hasPrefix_iff]
  exact List.nil_prefix

theorem serveHTTP_foldl (path : String) :
    ∀ (gs : List (RouterGroup HandlerFunc)) (acc : List HandlerFunc),
      gs.foldl
          (fun middlewares group =>
            if HasPrefix path group.pfx then middlewares ++ group.middlewares else middlewares)
          acc
        = acc ++ ((gs.filter fun g => HasPrefix path g.pfx).map fun g => g.middlewares).flatten := by
  intro gs
  induction gs with
  | nil => intro acc; simp
  | cons g gs ih =>
    intro acc
    rw [List.foldl_cons, ih]
    by_cases hg : HasPrefix path g.pfx = true
    · simp [hg, List.append_assoc]
    · simp [hg]

theorem serveHTTP_eq (e : Engine HandlerFunc) (path : String) :
    e.ServeHTTP path
      = ((e.groups.filter fun g => HasPrefix path g.pfx).map fun g => g.middlewares).flatten := by
  unfold Engine.ServeHTTP
  rw [serveHTTP_foldl]
  rfl

/-- C6 (middleware selection).  For every engine state and every request path, the list that
`ServeHTTP` stores in the context's handlers is the concatenation, in group-creation order, of
the middleware lists of exactly the groups whose prefix is a string prefix of the path; other
groups contribute nothing.  For instance a middleware on the group `/api` is in the chain for
`/api/users` and for `/apiextra`, and not for `/other`. -/
theorem serveHTTP_selects (e : Engine HandlerFunc) (path : String) :
    e.ServeHTTP path
      = ((e.groups.filter fun g => HasPrefix path g.pfx).map fun g => g.middlewares).flatten ∧
    (∀ g : RouterGroup HandlerFunc, HasPrefix path g.pfx = true ↔ g.pfx.data <+: path.data) ∧
    (((New : Engine String).Group 0 "/api").bind fun eg =>
        (eg.1.Use eg.2 ["auth"]).map fun e1 =>
          (e1.ServeHTTP "/api/users", e1.ServeHTTP "/apiextra", e1.ServeHTTP "/other"))
      = some (["auth"], ["auth"], []) :=
  ⟨serveHTTP_eq e path, fun g => hasPrefix_iff path g.pfx, by decide⟩

/-! ### The engine's own group -/

theorem call_head (e e' : Engine HandlerFunc) (c : Call HandlerFunc)
    (root : RouterGroup HandlerFunc) (rest : List (RouterGroup HandlerFunc))
    (hg : e.groups = root :: rest) (h : e.call c = some e') :
    ∃ rest', e'.groups
      = { root with middlewares := root.middlewares ++ rootUses [c] } :: rest' := by
  cases c with
  | group g suffix =>
    simp only [Engine.call, Engine.Group] at h
    cases hgg : e.groups[g]? with
    | none => rw [hgg] at h; cases h
    | some grp =>
      rw [hgg] at h
      simp only [Option.map_some', Option.some.injEq] at h
      subst h
      exact ⟨rest ++ [{ pfx := grp.pfx ++ suffix, middlewares := [], parent := some g }],
        by simp [hg, rootUses]⟩
  | use g mws =>
    simp only [Engine.call, Engine.Use] at h
    cases hgg : e.groups[g]? with
    | none => rw [hgg] at h; cases h
    | some grp =>
      rw [hgg] at h
      simp only [Option.some.injEq] at h
      subst h
      cases g with
      | zero =>
        rw [hg] at hgg
        simp only [List.getElem?_cons_zero, Option.some.injEq] at hgg
        subst hgg
        exact ⟨rest, by simp [hg, rootUses]⟩
      | succ k =>
        exact ⟨rest.set k { grp with middlewares := grp.middlewares ++ mws },
          by simp [hg, rootUses]⟩
  | addRoute g method comp handler =>
    simp only [Engine.call, Engine.addRoute] at h
    cases hgg : e.groups[g]? with
    | none => rw [hgg] at h; cases h
    | some grp =>
      rw [hgg] at h
      simp only [Option.some.injEq] at h
      subst h
      exact ⟨rest, by simp [hg, rootUses]⟩
  | get g pattern handler =>
    simp only [Engine.call, Engine.GET, Engine.addRoute] at h
    cases hgg : e.groups[g]? with
    | none => rw [hgg] at h; cases h
    | some grp =>
      rw [hgg] at h
      simp only [Option.some.injEq] at h
      subst h
      exact ⟨rest, by simp [hg, rootUses]⟩
  | post g pattern handler =>
    simp only [Engine.call, Engine.POST, Engine.addRoute] at h
    cases hgg : e.groups[g]? with
    | none => rw [hgg] at h; cases h
    | some grp =>
      rw [hgg] at h
      simp only [Option.some.injEq] at h
      subst h
      exact ⟨rest, by simp [hg, rootUses]⟩

theorem rootUses_cons (c : Call HandlerFunc) (cs : List (Call HandlerFunc)) :
    rootUses (c :: cs) = rootUses [c] ++ rootUses cs := by
  cases c <;> simp [rootUses]

theorem calls_head : ∀ (cs : List (Call HandlerFunc)) (e e' : Engine HandlerFunc)
    (root : RouterGroup HandlerFunc) (rest : List (RouterGroup HandlerFunc)),
    e.groups = root :: rest → e.calls cs = some e' →
      ∃ rest', e'.groups
        = { root with middlewares := root.middlewares ++ rootUses cs } :: rest' := by
  intro cs
  induction cs with
  | nil =>
    intro e e' root rest hg h
    simp only [Engine.calls, Option.some.injEq] at h
    subst h
    exact ⟨rest, by simp [hg, rootUses]⟩
  | cons c cs ih =>
    intro e e' root rest hg h
    rw [Engine.calls] at h
    cases hc : e.call c with
    | none => rw [hc] at h; cases h
    | some e1 =>
      rw [hc] at h
      obtain ⟨rest1, hg1⟩ := call_head e e1 c root rest hg hc
      obtain ⟨rest', hg'⟩ := ih e1 e' _ rest1 hg1 h
      exact ⟨rest', by rw [hg', rootUses_cons c cs]; simp [List.append_assoc]⟩

theorem serveHTTP_root (e : Engine HandlerFunc) (root : RouterGroup HandlerFunc)
    (rest : List (RouterGroup HandlerFunc)) (hg : e.groups = root :: rest) (hp : root.pfx = "")
    (path : String) :
    e.ServeHTTP path
      = root.middlewares ++ ({ e with groups := rest } : Engine HandlerFunc).ServeHTTP path := by
  rw [serveHTTP_eq, serveHTTP_eq, hg]
  simp [hp, hasPrefix_empty]

/-- C7 (root middleware applies to all requests).  For every engine obtained from `New()` by
a sequence of `Group`, `Use` and route registration calls and every request path (the empty
path included), the middlewares of the engine's own group, which are those registered on it
by the `Use` calls, are all in the chain `ServeHTTP` builds and form its leading segment,
ahead of the middlewares of every other group. -/
theorem root_middlewares_lead (cs : List (Call HandlerFunc)) (e : Engine HandlerFunc)
    (path : String) (hcalls : (New : Engine HandlerFunc).calls cs = some e) :
    ∃ root rest, e.groups = root :: rest ∧ root.middlewares = rootUses cs ∧
      e.ServeHTTP path
        = root.middlewares ++ ({ e with groups := rest } : Engine HandlerFunc).ServeHTTP path ∧
      root.middlewares <+: e.ServeHTTP path ∧
      ∀ h ∈ root.middlewares, h ∈ e.ServeHTTP path := by
  obtain ⟨rest, hg⟩ := calls_head cs New e _ [] rfl hcalls
  have hserve := serveHTTP_root e _ rest hg rfl path
  refine ⟨_, rest, hg, by simp, hserve, ?_, ?_⟩
  · rw [hserve]; exact List.prefix_append _ _
  · intro h hh
    rw [hserve]
    exact List.mem_append_left _ hh

/-- C7, witness: a root middleware, a group `/api` with its own middleware, and the empty
request path. -/
theorem root_middlewares_lead_witness :
    ∃ root rest,
      ({ router := [("GET", "/api/users", "users")],
         groups := [{ pfx := "", middlewares := ["log"], parent := none },
                    { pfx := "/api", middlewares := ["auth"], parent := some 0 }] }
          : Engine String).groups = root :: rest ∧
      root.middlewares
        = rootUses [Call.use 0 ["log"], Call.group 0 "/api", Call.use 1 ["auth"],
            Call.get 1 "/users" "users"] ∧
      ({ router := [("GET", "/api/users", "users")],
         groups := [{ pfx := "", middlewares := ["log"], parent := none },
                    { pfx := "/api", middlewares := ["auth"], parent := some 0 }] }
          : Engine String).ServeHTTP ""
        = root.middlewares
          ++ ({ router := [("GET", "/api/users", "users")], groups := rest }
                : Engine String).ServeHTTP "" ∧
      root.middlewares <+:
        ({ router := [("GET", "/api/users", "users")],
           groups := [{ pfx := "", middlewares := ["log"], parent := none },
                      { pfx := "/api", middlewares := ["auth"], parent := some 0 }] }
            : Engine String).ServeHTTP "" ∧
      ∀ h ∈ root.middlewares, h ∈
        ({ router := [("GET", "/api/users", "users")],
           groups := [{ pfx := "", middlewares := ["log"], parent := none },
                      { pfx := "/api", middlewares := ["auth"], parent := some 0 }] }
            : Engine String).ServeHTTP "" :=
  root_middlewares_lead
    [Call.use 0 ["log"], Call.group 0 "/api", Call.use 1 ["auth"], Call.get 1 "/users" "users"]
    _ "" rfl

/-! ### Group prefixes -/

/-- A registration call leaves every existing group where it is, with the prefix it has. -/
theorem call_keeps_pfx (e e' : Engine HandlerFunc) (c : Call HandlerFunc)
    (h : e.call c = some e') (i : Nat) (grp : RouterGroup HandlerFunc)
    (hi : e.groups[i]? = some grp) :
    ∃ grp', e'.groups[i]? = some grp' ∧ grp'.pfx = grp.pfx := by
  have hlt : i < e.groups.length := (List.getElem?_eq_some.mp hi).1
  cases c with
  | group g suffix =>
    simp only [Engine.call, Engine.Group] at h
    cases hgg : e.groups[g]? with
    | none => rw [hgg] at h; cases h
    | some grp0 =>
      rw [hgg] at h
      simp only [Option.map_some', Option.some.injEq] at h
      subst h
      exact ⟨grp, by simp only [List.getElem?_append_left hlt, hi], rfl⟩
  | use g mws =>
    simp only [Engine.call, Engine.Use] at h
    cases hgg : e.groups[g]? with
    | none => rw [hgg] at h; cases h
    | some grp0 =>
      rw [hgg] at h
      simp only [Option.some.injEq] at h
      subst h
      by_cases hgi : g = i
      · subst hgi
        rw [hi] at hgg
        simp only [Option.some.injEq] at hgg
        subst hgg
        exact ⟨{ grp with middlewares := grp.middlewares ++ mws },
          by simp only [List.getElem?_set, if_true, hlt], rfl⟩
      · exact ⟨grp, by simp only [List.getElem?_set_ne hgi, hi], rfl⟩
  | addRoute g method comp handler =>
    simp only [Engine.call, Engine.addRoute] at h
    cases hgg : e.groups[g]? with
    | none => rw [hgg] at h; cases h
    | some grp0 =>
      rw [hgg] at h
      simp only [Option.some.injEq] at h
      subst h
      exact ⟨grp, hi, rfl⟩
  | get g pattern handler =>
    simp only [Engine.call, Engine.GET, Engine.addRoute] at h
    cases hgg : e.groups[g]? with
    | none => rw [hgg] at h; cases h
    | some grp0 =>
      rw [hgg] at h
      simp only [Option.some.injEq] at h
      subst h
      exact ⟨grp, hi, rfl⟩
  | post g pattern handler =>
    simp only [Engine.call, Engine.POST, Engine.addRoute] at h
    cases hgg : e.groups[g]? with
    | none => rw [hgg] at h; cases h
    | some grp0 =>
      rw [hgg] at h
      simp only [Option.some.injEq] at h
      subst h
      exact ⟨grp, hi, rfl⟩

theorem calls_keep_pfx : ∀ (cs : List (Call HandlerFunc)) (e e' : Engine HandlerFunc),
    e.calls cs = some e' → ∀ (i : Nat) (grp : RouterGroup HandlerFunc),
      e.groups[i]? = some grp → ∃ grp', e'.groups[i]? = some grp' ∧ grp'.pfx = grp.pfx := by
  intro cs
  induction cs with
  | nil =>
    intro e e' h i grp hi
    simp only [Engine.calls, Option.some.injEq] at h
    subst h
    exact ⟨grp, hi, rfl⟩
  | cons c cs ih =>
    intro e e' h i grp hi
    rw [Engine.calls] at h
    cases hc : e.call c with
    | none => rw [hc] at h; cases h
    | some e1 =>
      rw [hc] at h
      obtain ⟨grp1, hi1, hp1⟩ := call_keeps_pfx e e1 c hc i grp hi
      obtain ⟨grp', hi', hp'⟩ := ih e1 e' h i grp1 hi1
      exact ⟨grp', hi', by rw [hp', hp1]⟩

/-- `Group` creates the group whose prefix is the parent's prefix followed by the suffix. -/
theorem group_pfx (e e1 : Engine HandlerFunc) (g g1 : Nat) (suffix : String)
    (grp : RouterGroup HandlerFunc) (hg : e.groups[g]? = some grp)
    (h : e.Group g suffix = some (e1, g1)) :
    ∃ grp1, e1.groups[g1]? = some grp1 ∧ grp1.pfx = grp.pfx ++ suffix ∧
      grp1.parent = some g := by
  simp only [Engine.Group, hg, Option.some.injEq, Prod.mk.injEq] at h
  obtain ⟨rfl, rfl⟩ := h
  exact ⟨_, List.getElem?_concat_length _ _, rfl, rfl⟩

theorem nestGroups_pfx : ∀ (steps : List (String × List (Call HandlerFunc)))
    (e e1 : Engine HandlerFunc) (g g1 : Nat) (grp : RouterGroup HandlerFunc),
    e.groups[g]? = some grp → nestGroups e g steps = some (e1, g1) →
      ∃ grp1, e1.groups[g1]? = some grp1 ∧
        grp1.pfx = grp.pfx ++ concatAll (steps.map Prod.fst) := by
  intro steps
  induction steps with
  | nil =>
    intro e e1 g g1 grp hg h
    simp only [nestGroups, Option.some.injEq, Prod.mk.injEq] at h
    obtain ⟨rfl, rfl⟩ := h
    exact ⟨grp, hg, by simp [concatAll]⟩
  | cons st steps ih =>
    intro e e1 g g1 grp hg h
    obtain ⟨suffix, cs⟩ := st
    rw [nestGroups] at h
    cases hgr : e.Group g suffix with
    | none => rw [hgr] at h; cases h
    | some eg =>
      obtain ⟨ea, ga⟩ := eg
      rw [hgr] at h
      simp only at h
      cases hcs : ea.calls cs with
      | none => rw [hcs] at h; cases h
      | some eb =>
        rw [hcs] at h
        simp only at h
        obtain ⟨grpa, hga, hpa, _⟩ := group_pfx e ea g ga suffix grp hg hgr
        obtain ⟨grpb, hgb, hpb⟩ := calls_keep_pfx cs ea eb hcs ga grpa hga
        obtain ⟨grp1, hg1, hp1⟩ := ih eb e1 ga g1 grpb hgb h
        exact ⟨grp1, hg1, by
          rw [hp1, hpb, hpa]
          simp [concatAll, String.append_assoc]⟩

/-- C8 (prefix composition).  In an engine obtained from `New()`, for every chain of nested
groups `engine.Group(p1).Group(p2)...Group(pk)` with `k >= 0` (other registration calls may
come between the `Group` calls), the prefix of the resulting group is `p1 + p2 + ... + pk`;
it is the same after any later `Group`, `Use` and route registration calls; and registering a
route with local pattern `comp` and method `method` on that group passes exactly
`p1 + ... + pk + comp`, with that method and the handler, to the route table. -/
theorem prefix_composition (cs0 later : List (Call HandlerFunc))
    (steps : List (String × List (Call HandlerFunc))) (e0 e1 e2 : Engine HandlerFunc) (g : Nat)
    (h0 : (New : Engine HandlerFunc).calls cs0 = some e0)
    (h1 : nestGroups e0 0 steps = some (e1, g))
    (h2 : e1.calls later = some e2) :
    (∃ grp, e1.groups[g]? = some grp ∧ grp.pfx = concatAll (steps.map Prod.fst)) ∧
    (∃ grp, e2.groups[g]? = some grp ∧ grp.pfx = concatAll (steps.map Prod.fst)) ∧
    ∀ (method comp : String) (handler : HandlerFunc),
      e2.addRoute g method comp handler
        = some { e2 with
            router := e2.router ++ [(method, concatAll (steps.map Prod.fst) ++ comp, handler)] } := by
  obtain ⟨root, hroot, hrp⟩ := calls_keep_pfx cs0 New e0 h0 0 _ rfl
  obtain ⟨grp1, hg1, hp1⟩ := nestGroups_pfx steps e0 e1 0 g root hroot h1
  have hp1' : grp1.pfx = concatAll (steps.map Prod.fst) := by
    rw [hp1, hrp]
    exact String.empty_append _
  obtain ⟨grp2, hg2, hp2⟩ := calls_keep_pfx later e1 e2 h2 g grp1 hg1
  refine ⟨⟨grp1, hg1, hp1'⟩, ⟨grp2, hg2, by rw [hp2, hp1']⟩, ?_⟩
  intro method comp handler
  simp only [Engine.addRoute, hg2, hp2, hp1']

/-- C8, witness: `engine.Group("/api").Group("/v1")`, a `Use` after the first `Group`, a later
`Group` and `Use`, then `GET("/users")` on the nested group. -/
theorem prefix_composition_witness :
    (∃ grp, ({ router := [],
               groups := [{ pfx := "", middlewares := ["log"], parent := none },
                          { pfx := "/api", middlewares := ["auth"], parent := some 0 },
                          { pfx := "/api/v1", middlewares := [], parent := some 1 }] }
              : Engine String).groups[2]? = some grp ∧
        grp.pfx = concatAll ([("/api", [Call.use 1 ["auth"]]), ("/v1", [])].map Prod.fst)) ∧
    (∃ grp, ({ router := [],
               groups := [{ pfx := "", middlewares := ["log"], parent := none },
                          { pfx := "/api", middlewares := ["auth"], parent := some 0 },
                          { pfx := "/api/v1", middlewares := ["v1"], parent := some 1 },
                          { pfx := "/api/v1/x", middlewares := [], parent := some 2 }] }
              : Engine String).groups[2]? = some grp ∧
        grp.pfx = concatAll ([("/api", [Call.use 1 ["auth"]]), ("/v1", [])].map Prod.fst)) ∧
    ∀ (method comp : String) (handler : String),
      ({ router := [],
         groups := [{ pfx := "", middlewares := ["log"], parent := none },
                    { pfx := "/api", middlewares := ["auth"], parent := some 0 },
                    { pfx := "/api/v1", middlewares := ["v1"], parent := some 1 },
                    { pfx := "/api/v1/x", middlewares := [], parent := some 2 }] }
          : Engine String).addRoute 2 method comp handler
        = some { router := [] ++ [(method,
                    concatAll ([("/api", [Call.use 1 ["auth"]]), ("/v1", [])].map Prod.fst)
                      ++ comp, handler)],
                 groups := [{ pfx := "", middlewares := ["log"], parent := none },
                            { pfx := "/api", middlewares := ["auth"], parent := some 0 },
                            { pfx := "/api/v1", middlewares := ["v1"], parent := some 1 },
                            { pfx := "/api/v1/x", middlewares := [], parent := some 2 }] } :=
  prefix_composition [Call.use 0 ["log"]] [Call.group 2 "/x", Call.use 2 ["v1"]]
    [("/api", [Call.use 1 ["auth"]]), ("/v1", [])] _ _ _ 2 rfl rfl rfl

/-! ### `Default()` -/

/-- C9, counterexample: with the handlers named, `Default()` gives the engine's own group the
list `[Logger, Recovery]`; the first handler of that list, and of the chain of a request, is
the logger, not the recovery middleware. -/
theorem default_recovery_counterexample :
    Default "Logger" "Recovery"
      = some { router := [],
               groups := [{ pfx := "", middlewares := ["Logger", "Recovery"], parent := none }] } ∧
    (["Logger", "Recovery"] : List String).head? ≠ some "Recovery" ∧
    (({ router := [],
        groups := [{ pfx := "", middlewares := ["Logger", "Recovery"], parent := none }] }
        : Engine String).ServeHTTP "/").head? = some "Logger" :=
  ⟨rfl, by decide, by decide⟩

/-- C9 (recovery in the default engine), amended: in the engine returned by `Default()` the
middleware list of the engine's own group is `[Logger, Recovery]`: the recovery middleware is
its second handler, after the logger.  After any further registration calls and for every
request path the chain `ServeHTTP` builds begins with the logger, then the recovery
middleware; every other handler comes after the recovery middleware. -/
theorem default_chain (logger recovery : HandlerFunc) (cs : List (Call HandlerFunc))
    (e0 e : Engine HandlerFunc) (path : String)
    (h0 : Default logger recovery = some e0) (h : e0.calls cs = some e) :
    e0 = { router := [],
           groups := [{ pfx := "", middlewares := [logger, recovery], parent := none }] } ∧
    (∃ rest, e.groups
      = { pfx := "", middlewares := logger :: recovery :: rootUses cs, parent := none } :: rest) ∧
    ∃ tail, e.ServeHTTP path = logger :: recovery :: tail := by
  have he0 : e0 = ⟨[], [⟨"", [logger, recovery], none⟩]⟩ := by
    have hd : Default logger recovery = some ⟨[], [⟨"", [logger, recovery], none⟩]⟩ := rfl
    rw [hd] at h0
    exact (Option.some.inj h0).symm
  subst he0
  obtain ⟨rest, hg⟩ := calls_head cs _ e _ [] rfl h
  refine ⟨rfl, ⟨rest, by simpa using hg⟩, ?_⟩
  rw [serveHTTP_root e _ rest hg rfl path]
  exact ⟨_, by simp; rfl⟩

/-- C9, witness: the default engine, a group `/api` with a middleware, the path `/api/x`. -/
theorem default_chain_witness :
    ({ router := [],
       groups := [{ pfx := "", middlewares := ["Logger", "Recovery"], parent := none }] }
      : Engine String)
      = { router := [],
          groups := [{ pfx := "", middlewares := ["Logger", "Recovery"], parent := none }] } ∧
    (∃ rest, ({ router := [],
                groups := [{ pfx := "", middlewares := ["Logger", "Recovery"], parent := none },
                           { pfx := "/api", middlewares := ["auth"], parent := some 0 }] }
               : Engine String).groups
      = { pfx := "",
          middlewares := "Logger" :: "Recovery"
            :: rootUses [Call.group 0 "/api", Call.use 1 ["auth"]],
          parent := none } :: rest) ∧
    ∃ tail, ({ router := [],
               groups := [{ pfx := "", middlewares := ["Logger", "Recovery"], parent := none },
                          { pfx := "/api", middlewares := ["auth"], parent := some 0 }] }
              : Engine String).ServeHTTP "/api/x" = "Logger" :: "Recovery" :: tail :=
  default_chain "Logger" "Recovery" [Call.group 0 "/api", Call.use 1 ["auth"]] _ _ "/api/x"
    rfl rfl

/-! ### Patterns with a wildcard that is not last -/

/-- An `insert` call stamps the pattern on the node it ends at, one level down per segment. -/
theorem insert_stamps (pattern : String) : ∀ (segs : List String) (n n' : node),
    n.insert pattern segs 0 = some n' →
      ∃ ch m, Chain n' ch m ∧ m.pattern = pattern ∧ LandsAt ch segs := by
  intro segs
  induction segs with
  | nil =>
    intro n n' h
    rw [insert_nil] at h
    simp only [Option.some.injEq] at h
    subst h
    exact ⟨[], _, Chain.here _, rfl, List.Forall₂.nil⟩
  | cons s ss ih =>
    intro n n' h
    rcases insert_cases n n' pattern (s :: ss) h with ⟨hnil, _⟩ |
      ⟨s', ss', child, child', hseg, hchild, hci, rfl⟩ | ⟨s', ss', child', hseg, _, _, hci, rfl⟩
    · cases hnil
    · cases hseg
      obtain ⟨ch, m, hch, hm, hland⟩ := ih child child' hci
      obtain ⟨hp, hw⟩ := insert_part_isWild child child' pattern ss hci
      obtain ⟨_, hmatch⟩ := matchChild_some hchild
      have hmem : child' ∈ (node.mk n.pattern n.part
          (replaceFirst (matchesPart s) child' n.children) n.isWild).children := by
        rw [children_mk]
        have hfind : (replaceFirst (matchesPart s) child' n.children).find? (matchesPart s)
            = some child' :=
          find_replaceFirst_same (by rw [matchesPart_congr s hp hw]; exact hmatch) hchild
        exact List.mem_of_find?_eq_some hfind
      refine ⟨_, m, Chain.child hmem hch, hm, List.Forall₂.cons ?_ hland⟩
      rw [hp, hw]
      simpa [matchesPart] using hmatch
    · cases hseg
      obtain ⟨ch, m, hch, hm, hland⟩ := ih _ child' hci
      obtain ⟨hp, _⟩ := insert_part_isWild _ child' pattern ss hci
      have hmem : child' ∈ (node.mk n.pattern n.part (n.children ++ [child']) n.isWild).children := by
        rw [children_mk]
        exact List.mem_append_right _ (List.mem_singleton_self _)
      exact ⟨_, m, Chain.child hmem hch, hm, List.Forall₂.cons (Or.inl hp) hland⟩

/-- A node without pattern whose only child is never matched is never matched. -/
theorem search_dead_parent (part : String) (w : Bool) (child : node)
    (hchild : ∀ q, child.search q 0 = some none) (q : List String) :
    (node.mk "" part [child] w).search q 0 = some none := by
  cases q with
  | nil => rw [search_nil]; rfl
  | cons x xs =>
    rw [search_cons]
    split
    · rfl
    · simp only [node.matchChildren, children_mk, List.filter_cons, List.filter_nil]
      split
      · rw [firstResult_singleton]; exact hchild xs
      · rfl

/-- Search in the line of a pattern with a `*name` segment that is not last. -/
theorem lineTrie_search_dead (pattern star : String) (hstar : isStar star = true)
    (post : List String) (hpost : post ≠ []) :
    ∀ (pre : List String) (part : String) (w : Bool) (q : List String),
      (lineTrie pattern part w (pre ++ star :: post)).search q 0 = some none := by
  intro pre
  induction pre with
  | nil =>
    intro part w q
    cases post with
    | nil => exact absurd rfl hpost
    | cons p ps =>
      apply search_dead_parent
      intro q'
      cases q' with
      | nil => rw [search_nil]; rfl
      | cons x xs =>
        rw [search_cons, if_pos (by rw [lineTrie_part, hasPrefix_star, hstar])]
        rfl
  | cons s pre ih =>
    intro part w q
    exact search_dead_parent part w _ (ih s (isWildPart s)) q

/-- C10, counterexample: the segment list `[*a, b]` of `/*a/b` has its `*` segment first, and
`insert` completes, adds two nodes and stamps the pattern. -/
theorem malformed_pattern_counterexample :
    isStar "*a" = true ∧ starOnlyLast ["*a", "b"] = false ∧
    emptyRoot.insert "/*a/b" ["*a", "b"] 0
      = some (node.mk "" "" [node.mk "" "*a" [node.mk "/*a/b" "b" [] false] true] false) :=
  ⟨by decide, by decide, rfl⟩

/-- C10 (patterns with a `*` segment that is not last), amended: `insert` does not check the
position of `*` segments.  For every pattern whose list of non-empty segments contains a
`*`-prefixed segment that is not the last one, inserting it into any trie completes without
error and stamps the pattern on a node one level down per segment; and inserted alone into an
empty root the pattern is never found: every `search` returns `nil`. -/
theorem insert_accepts_malformed (pattern star : String) (pre post : List String) (n : node)
    (hne : ∀ s ∈ pre ++ star :: post, s ≠ "") (hstar : isStar star = true)
    (hpost : post ≠ []) :
    (∃ n', n.insert pattern (pre ++ star :: post) 0 = some n' ∧
      ∃ ch m, Chain n' ch m ∧ m.pattern = pattern ∧ LandsAt ch (pre ++ star :: post)) ∧
    ∃ t, emptyRoot.insert pattern (pre ++ star :: post) 0 = some t ∧
      ∀ q, t.search q 0 = some none := by
  constructor
  · obtain ⟨n', hn'⟩ := insert_total pattern _ n hne
    exact ⟨n', hn', insert_stamps pattern _ n n' hn'⟩
  · exact ⟨_, insert_emptyRoot pattern _ hne,
      lineTrie_search_dead pattern star hstar post hpost pre "" false⟩

/-- C10, witness: `/*a/b` inserted into the trie of `/a`. -/
theorem insert_accepts_malformed_witness :
    (∃ n', (node.mk "" "" [node.mk "/a" "a" [] false] false).insert "/*a/b"
        ([] ++ "*a" :: ["b"]) 0 = some n' ∧
      ∃ ch m, Chain n' ch m ∧ m.pattern = "/*a/b" ∧ LandsAt ch ([] ++ "*a" :: ["b"])) ∧
    ∃ t, emptyRoot.insert "/*a/b" ([] ++ "*a" :: ["b"]) 0 = some t ∧
      ∀ q, t.search q 0 = some none :=
  insert_accepts_malformed "/*a/b" "*a" [] ["b"]
    (node.mk "" "" [node.mk "/a" "a" [] false] false) (by decide) (by decide) (by decide)

/-! ### `search` is a depth-first search for the first valid chain -/

/-- The loop of `search` over the matching children, by positions: a success comes from the
first matching child that succeeds, a failure means that every matching child fails. -/
theorem firstResult_filter_some {f : node → Option (Option node)} {q : node → Bool} {m : node}
    (htotal : ∀ c, ∃ r, f c = some r) :
    ∀ cs : List node, firstResult f (cs.filter q) = some (some m) →
      ∃ (i : Nat) (c : node), cs[i]? = some c ∧ q c = true ∧ f c = some (some m) ∧
        ∀ (j : Nat) (d : node), j < i → cs[j]? = some d → q d = true → f d = some none := by
  intro cs
  induction cs with
  | nil => intro h; simp [firstResult] at h
  | cons x xs ih =>
    intro h
    by_cases hx : q x = true
    · rw [List.filter_cons_of_pos hx, firstResult] at h
      obtain ⟨r, hr⟩ := htotal x
      cases r with
      | some m0 =>
        rw [hr] at h
        simp only [Option.some.injEq] at h
        subst h
        exact ⟨0, x, by simp, hx, hr, fun j d hj => absurd hj (Nat.not_lt_zero j)⟩
      | none =>
        rw [hr] at h
        obtain ⟨i, c, hi, hqc, hfc, hbefore⟩ := ih h
        refine ⟨i + 1, c, by simpa using hi, hqc, hfc, ?_⟩
        intro j d hj hd hqd
        cases j with
        | zero =>
          simp only [List.getElem?_cons_zero, Option.some.injEq] at hd
          subst hd
          exact hr
        | succ j => exact hbefore j d (by omega) (by simpa using hd) hqd
    · rw [List.filter_cons_of_neg hx] at h
      obtain ⟨i, c, hi, hqc, hfc, hbefore⟩ := ih h
      refine ⟨i + 1, c, by simpa using hi, hqc, hfc, ?_⟩
      intro j d hj hd hqd
      cases j with
      | zero =>
        simp only [List.getElem?_cons_zero, Option.some.injEq] at hd
        subst hd
        exact absurd hqd hx
      | succ j => exact hbefore j d (by omega) (by simpa using hd) hqd

theorem firstResult_filter_none {f : node → Option (Option node)} {q : node → Bool} :
    ∀ cs : List node, firstResult f (cs.filter q) = some none →
      ∀ c ∈ cs, q c = true → f c = some none := by
  intro cs
  induction cs with
  | nil => intro _ c hc; cases hc
  | cons x xs ih =>
    intro h c hc hqc
    by_cases hx : q x = true
    · rw [List.filter_cons_of_pos hx, firstResult] at h
      split at h
      · cases h
      · cases h
      · next hfx =>
        rcases List.mem_cons.mp hc with rfl | hc
        · exact hfx
        · exact ih h c hc hqc
    · rw [List.filter_cons_of_neg hx] at h
      rcases List.mem_cons.mp hc with rfl | hc
      · exact absurd hqc hx
      · exact ih h c hc hqc

theorem lexLe_refl : ∀ is : List Nat, lexLe is is = true := by
  intro is
  induction is with
  | nil => rfl
  | cons i is ih => simp [lexLe, ih]

theorem lexLe_antisymm : ∀ is js : List Nat, lexLe is js = true → lexLe js is = true → is = js := by
  intro is
  induction is with
  | nil =>
    intro js _ h
    cases js with
    | nil => rfl
    | cons j js => simp [lexLe] at h
  | cons i is ih =>
    intro js h1 h2
    cases js with
    | nil => simp [lexLe] at h1
    | cons j js =>
      simp only [lexLe, Bool.or_eq_true, decide_eq_true_eq, Bool.and_eq_true, beq_iff_eq] at h1 h2
      rcases h1 with h1 | ⟨rfl, h1⟩
      · rcases h2 with h2 | ⟨rfl, _⟩
        · omega
        · omega
      · rcases h2 with h2 | ⟨_, h2⟩
        · omega
        · rw [ih js h1 h2]

/-- A chain of positions leads to one node. -/
theorem validChain_unique {n : node} {ps : List String} {is : List Nat} {m m' : node}
    (h : ValidChain n ps is m) : ValidChain n ps is m' → m = m' := by
  induction h with
  | stop n ps _ _ => intro h'; cases h'; rfl
  | step _ hc _ _ ih =>
    intro h'
    cases h' with
    | step _ hc' _ hrest =>
      rw [hc] at hc'
      cases hc'
      exact ih hrest

/-- A success of `search` is the end of the first valid chain; a failure means there is no
valid chain. -/
theorem search_validChain (n : node) : ∀ ps : List String,
    (∀ m, n.search ps 0 = some (some m) →
      ∃ is, ValidChain n ps is m ∧
        ∀ is' m', ValidChain n ps is' m' → lexLe is is' = true) ∧
    (n.search ps 0 = some none → ∀ is m, ¬ ValidChain n ps is m) := by
  induction n using node.induct with
  | h pat part cs w ih =>
    intro ps
    constructor
    · intro m h
      rcases search_some_cases _ m ps h with ⟨rfl, hp, hstop⟩ | ⟨hns, p, ps', rfl, _⟩
      · exact ⟨[], ValidChain.stop _ ps hp hstop, fun _ _ _ => rfl⟩
      · rw [search_cons, if_neg (by rw [hns]; simp)] at h
        obtain ⟨i, c, hi, hqc, hfc, hbefore⟩ :=
          firstResult_filter_some (fun c => search_total c ps') _ h
        have hcmem : c ∈ cs := List.getElem?_mem hi
        obtain ⟨is, his, hmin⟩ := (ih c hcmem ps').1 m hfc
        refine ⟨i :: is, ValidChain.step hns hi hqc his, ?_⟩
        intro is' m' hv
        cases hv with
        | stop _ _ _ hstop =>
          rcases hstop with hnil | hstar
          · cases hnil
          · rw [hns] at hstar; cases hstar
        | @step _ d _ _ _ j js _ hj hqd hrest =>
          rcases Nat.lt_trichotomy j i with hlt | heq | hgt
          · have hd : d ∈ cs := List.getElem?_mem hj
            exact absurd hrest ((ih d hd ps').2 (hbefore j d hlt hj hqd) js m')
          · subst heq
            have hj' : cs[j]? = some d := hj
            rw [show cs[j]? = some c from hi] at hj'
            cases hj'
            simp [lexLe, hmin js m' hrest]
          · simp [lexLe, hgt]
    · intro h is m hv
      cases hv with
      | stop _ _ hp hstop =>
        rw [search_eq] at h
        have hcond : ps.length = 0 ∨ HasPrefix (node.mk pat part cs w).part "*" = true := by
          rcases hstop with rfl | hstar
          · exact Or.inl rfl
          · exact Or.inr hstar
        rw [if_pos hcond, if_neg hp] at h
        cases h
      | @step _ d _ p ps' j js hns hj hqd hrest =>
        rw [search_cons, if_neg (by rw [hns]; simp)] at h
        have hd : d ∈ cs := List.getElem?_mem hj
        exact (ih d hd ps').2 (firstResult_filter_none _ h d hd hqd) js m hrest

/-- C13 (first-success depth-first backtracking).  For every trie and path, `search(path, 0)`
returns a node exactly when there is a chain `root = n0, n1, ..., nk`, each `ni` a child of
`n(i-1)` that matches the `i`-th path segment, no node before `nk` with a part beginning with
`'*'`, `nk` with a non-empty pattern, and `k = len(path)` or the part of `nk` beginning with
`'*'`; the node returned is the end of the chain that comes first in child-list order
(lexicographically by child positions); without such a chain the result is `nil`.  For
instance, after `/a/x` and `/:p/y`, searching `[a, y]` fails below `a` and returns the node
with pattern `/:p/y`. -/
theorem search_first_valid_chain (root : node) (path : List String) :
    (∀ m, root.search path 0 = some (some m) ↔
      ∃ is, ValidChain root path is m ∧
        ∀ is' m', ValidChain root path is' m' → lexLe is is' = true) ∧
    (root.search path 0 = some none ↔ ¬ ∃ is m, ValidChain root path is m) ∧
    ((insertAll emptyRoot [("/a/x", ["a", "x"]), ("/:p/y", [":p", "y"])]).bind fun t =>
        (t.search ["a", "y"] 0).map fun r => r.map node.pattern)
      = some (some (some "/:p/y")) := by
  refine ⟨?_, ?_, rfl⟩
  · intro m
    constructor
    · exact (search_validChain root path).1 m
    · rintro ⟨is, hv, hmin⟩
      obtain ⟨r, hr⟩ := search_total root path
      cases r with
      | none => exact absurd hv ((search_validChain root path).2 hr is m)
      | some m0 =>
        obtain ⟨is0, hv0, hmin0⟩ := (search_validChain root path).1 m0 hr
        have heq := lexLe_antisymm is is0 (hmin is0 m0 hv0) (hmin0 is m hv)
        subst heq
        rw [hr, validChain_unique hv hv0]
  · constructor
    · rintro h ⟨is, m, hv⟩
      exact (search_validChain root path).2 h is m hv
    · intro h
      obtain ⟨r, hr⟩ := search_total root path
      cases r with
      | none => exact hr
      | some m0 =>
        obtain ⟨is0, hv0, _⟩ := (search_validChain root path).1 m0 hr
        exact absurd ⟨is0, m0, hv0⟩ h

/-! ### Insertion keeps valid chains valid -/

theorem getElem_replaceFirst {p : node → Bool} {c' c : node} :
    ∀ (cs : List node) (i : Nat), cs[i]? = some c →
      (replaceFirst p c' cs)[i]? = some c ∨
        ((replaceFirst p c' cs)[i]? = some c' ∧ cs.find? p = some c) := by
  intro cs
  induction cs with
  | nil => intro i h; simp at h
  | cons x xs ih =>
    intro i h
    by_cases hx : p x = true
    · cases i with
      | zero =>
        simp only [List.getElem?_cons_zero, Option.some.injEq] at h
        subst h
        exact Or.inr ⟨by simp [replaceFirst, hx], by simp [List.find?_cons, hx]⟩
      | succ i =>
        refine Or.inl ?_
        simp only [replaceFirst, hx, if_true, List.getElem?_cons_succ]
        simpa using h
    · have hx' : p x = false := by simpa using hx
      cases i with
      | zero =>
        refine Or.inl ?_
        simp only [replaceFirst, hx', Bool.false_eq_true, if_false, List.getElem?_cons_zero]
        simpa using h
      | succ i =>
        have h' : xs[i]? = some c := by simpa using h
        rcases ih i h' with h1 | ⟨h1, h2⟩
        · exact Or.inl (by
            simp only [replaceFirst, hx', Bool.false_eq_true, if_false, List.getElem?_cons_succ]
            exact h1)
        · exact Or.inr ⟨by
            simp only [replaceFirst, hx', Bool.false_eq_true, if_false, List.getElem?_cons_succ]
            exact h1, by rw [List.find?_cons, hx']; exact h2⟩

/-- A valid chain is still valid, at the same positions, after an `insert` of a non-empty
pattern. -/
theorem validChain_insert (pattern : String) (hpat : pattern ≠ "") :
    ∀ (segs : List String) (n n' : node) (q : List String) (is : List Nat) (m : node),
      n.insert pattern segs 0 = some n' → ValidChain n q is m →
        ∃ m', ValidChain n' q is m' := by
  intro segs
  induction segs with
  | nil =>
    intro n n' q is m h hv
    rw [insert_nil] at h
    simp only [Option.some.injEq] at h
    subst h
    cases hv with
    | stop _ _ _ hstop => exact ⟨_, ValidChain.stop _ q hpat hstop⟩
    | step hns hi hq hrest => exact ⟨m, ValidChain.step hns hi hq hrest⟩
  | cons s ss ih =>
    intro n n' q is m h hv
    rcases insert_cases n n' pattern (s :: ss) h with ⟨hnil, _⟩ |
      ⟨s', ss', child, child', hseg, hchild, hci, rfl⟩ | ⟨s', ss', child', hseg, _, _, hci, rfl⟩
    · cases hnil
    · cases hseg
      cases hv with
      | stop _ _ hp hstop => exact ⟨_, ValidChain.stop _ q hp hstop⟩
      | @step _ c _ p ps i js hns hi hq hrest =>
        rcases getElem_replaceFirst n.children i hi with h1 | ⟨h1, h2⟩
        · exact ⟨m, ValidChain.step hns (by rw [children_mk]; exact h1) hq hrest⟩
        · have hcc : child = c := by
            unfold node.matchChild at hchild
            rw [h2] at hchild
            exact (Option.some.inj hchild).symm
          subst hcc
          obtain ⟨m', hm'⟩ := ih child child' ps js m hci hrest
          obtain ⟨hp, hw⟩ := insert_part_isWild child child' pattern ss hci
          exact ⟨m', ValidChain.step hns (by rw [children_mk]; exact h1)
            (by rw [matchesPart_congr p hp hw]; exact hq) hm'⟩
    · cases hseg
      cases hv with
      | stop _ _ hp hstop => exact ⟨_, ValidChain.stop _ q hp hstop⟩
      | @step _ c _ p ps i js hns hi hq hrest =>
        have hlt : i < n.children.length := (List.getElem?_eq_some.mp hi).1
        exact ⟨m, ValidChain.step hns
          (by rw [children_mk, List.getElem?_append_left hlt]; exact hi) hq hrest⟩

/-- C20 (registration never un-matches a path).  For every trie, every `insert` call with a
non-empty pattern and non-empty segments, and every path `q`: the call completes, and if
`search(q, 0)` returned a node before it, `search(q, 0)` returns a node after it. -/
theorem insert_keeps_matches (n : node) (pattern : String) (segs q : List String) (m : node)
    (hpat : pattern ≠ "") (hsegs : ∀ s ∈ segs, s ≠ "")
    (hsearch : n.search q 0 = some (some m)) :
    ∃ n', n.insert pattern segs 0 = some n' ∧ ∃ m', n'.search q 0 = some (some m') := by
  obtain ⟨n', hn'⟩ := insert_total pattern segs n hsegs
  refine ⟨n', hn', ?_⟩
  obtain ⟨is, hv, _⟩ := (search_validChain n q).1 m hsearch
  obtain ⟨m1, hv1⟩ := validChain_insert pattern hpat segs n n' q is m hn' hv
  obtain ⟨r, hr⟩ := search_total n' q
  cases r with
  | none => exact absurd hv1 ((search_validChain n' q).2 hr is m1)
  | some m' => exact ⟨m', hr⟩

/-- C20, witness: `/:p/y` is inserted into the trie of `/a/x`; `[a, x]` matched before. -/
theorem insert_keeps_matches_witness :
    ∃ n', (node.mk "" "" [node.mk "" "a" [node.mk "/a/x" "x" [] false] false] false).insert
        "/:p/y" [":p", "y"] 0 = some n' ∧
      ∃ m', n'.search ["a", "x"] 0 = some (some m') :=
  insert_keeps_matches (node.mk "" "" [node.mk "" "a" [node.mk "/a/x" "x" [] false] false] false)
    "/:p/y" [":p", "y"] ["a", "x"] (node.mk "/a/x" "x" [] false) (by decide) (by decide) rfl

/-! ### The shape of the children lists -/

theorem labels_replaceFirst {p : node → Bool} {c c' : node} (hp : c'.part = c.part)
    (hw : c'.isWild = c.isWild) :
    ∀ cs : List node, cs.find? p = some c → labels (replaceFirst p c' cs) = labels cs := by
  intro cs
  induction cs with
  | nil => intro h; cases h
  | cons x xs ih =>
    intro h
    by_cases hx : p x = true
    · rw [List.find?_cons, hx] at h
      simp only [Option.some.injEq] at h
      subst h
      simp [replaceFirst, hx, labels, hp, hw]
    · have hx' : p x = false := by simpa using hx
      rw [List.find?_cons, hx'] at h
      have := ih h
      simp only [labels] at this ⊢
      simp [replaceFirst, hx', this]

/-- Once a node has a wild child, `insert` adds no further child to it. -/
theorem insert_labels_of_wild (n n' : node) (pattern : String) (segs : List String)
    (hwild : ∃ c ∈ n.children, c.isWild = true) (h : n.insert pattern segs 0 = some n') :
    labels n'.children = labels n.children := by
  rcases insert_cases n n' pattern segs h with ⟨_, rfl⟩ |
    ⟨s, ss, child, child', _, hchild, hci, rfl⟩ | ⟨s, ss, child', _, hnone, _, _, rfl⟩
  · rfl
  · obtain ⟨hp, hw⟩ := insert_part_isWild child child' pattern ss hci
    rw [children_mk]
    exact labels_replaceFirst hp hw n.children hchild
  · obtain ⟨c, hc, hcw⟩ := hwild
    unfold node.matchChild at hnone
    have := List.find?_eq_none.mp hnone c hc
    simp [matchesPart, hcw] at this

theorem wellFormed_leaf (pat part : String) (w : Bool) : WellFormed (node.mk pat part [] w) := by
  refine WellFormed.mk _ ⟨List.nodup_nil, ?_, ?_⟩ ?_
  · intro x hx; cases hx
  · intro x hx; cases hx
  · intro c hc; cases hc

theorem wellFormed_children {n : node} (h : WellFormed n) :
    SiblingsOK n.children ∧ ∀ c ∈ n.children, WellFormed c := by
  cases h with
  | mk _ h1 h2 => exact ⟨h1, h2⟩

theorem wellFormed_chain {n m : node} {ch : List (String × Bool)} (hch : Chain n ch m) :
    WellFormed n → WellFormed m := by
  induction hch with
  | here => exact id
  | child hc _ ih => intro hn; exact ih ((wellFormed_children hn).2 _ hc)

/-- The shape of the children lists survives every `insert` call. -/
theorem insert_wellFormed (pattern : String) : ∀ (segs : List String) (n n' : node),
    WellFormed n → n.insert pattern segs 0 = some n' → WellFormed n' := by
  intro segs
  induction segs with
  | nil =>
    intro n n' hn h
    rw [insert_nil] at h
    simp only [Option.some.injEq] at h
    subst h
    exact WellFormed.mk _ (wellFormed_children hn).1 (wellFormed_children hn).2
  | cons s ss ih =>
    intro n n' hn h
    obtain ⟨hsib, hkids⟩ := wellFormed_children hn
    rcases insert_cases n n' pattern (s :: ss) h with ⟨hnil, _⟩ |
      ⟨s', ss', child, child', hseg, hchild, hci, rfl⟩ |
      ⟨s', ss', child', hseg, hnone, _, hci, rfl⟩
    · cases hnil
    · cases hseg
      obtain ⟨hp, hw⟩ := insert_part_isWild child child' pattern ss hci
      obtain ⟨hmem, _⟩ := matchChild_some hchild
      refine WellFormed.mk _ ?_ ?_
      · rw [children_mk]
        unfold SiblingsOK
        rw [labels_replaceFirst hp hw n.children hchild]
        exact hsib
      · intro c hc
        rw [children_mk] at hc
        rcases mem_replaceFirst hc with rfl | hc
        · exact ih child c (hkids child hmem) hci
        · exact hkids c hc
    · cases hseg
      obtain ⟨hp, hw⟩ := insert_part_isWild _ child' pattern ss hci
      have hfresh : WellFormed (node.mk "" s [] (isWildPart s)) :=
        wellFormed_leaf "" s (isWildPart s)
      have hno : ∀ c ∈ n.children, c.part ≠ s ∧ c.isWild = false := by
        intro c hc
        unfold node.matchChild at hnone
        have := List.find?_eq_none.mp hnone c hc
        simpa [matchesPart] using this
      have hlab : labels (n.children ++ [child']) = labels n.children ++ [(s, isWildPart s)] := by
        simp only [labels, List.map_append, List.map_cons, List.map_nil, hp, hw]
        rfl
      refine WellFormed.mk _ ?_ ?_
      · rw [children_mk]
        unfold SiblingsOK
        rw [hlab]
        refine ⟨?_, ?_, ?_⟩
        · rw [List.map_append, List.nodup_append]
          refine ⟨hsib.1, by simp, ?_⟩
          intro a ha hb
          simp only [List.map_cons, List.map_nil, List.mem_singleton] at hb
          subst hb
          simp only [labels, List.map_map, List.mem_map, Function.comp] at ha
          obtain ⟨c, hc, hcp⟩ := ha
          exact (hno c hc).1 hcp
        · rw [List.dropLast_concat]
          intro x hx
          simp only [labels, List.mem_map] at hx
          obtain ⟨c, hc, rfl⟩ := hx
          exact (hno c hc).2
        · intro x hx
          rcases List.mem_append.mp hx with hx | hx
          · exact hsib.2.2 x hx
          · rw [List.mem_singleton.mp hx]
      · intro c hc
        rw [children_mk] at hc
        rcases List.mem_append.mp hc with hc | hc
        · exact hkids c hc
        · rw [List.mem_singleton.mp hc]
          exact ih _ child' hfresh hci

theorem wellFormed_insertAll : ∀ (rs : List Route) (n t : node),
    WellFormed n → insertAll n rs = some t → WellFormed t := by
  intro rs
  induction rs with
  | nil =>
    intro n t hn h
    simp only [insertAll, Option.some.injEq] at h
    subst h
    exact hn
  | cons r rs ih =>
    intro n t hn h
    rw [insertAll] at h
    cases hi : n.insert r.1 r.2 0 with
    | none => rw [hi] at h; cases h
    | some n' =>
      rw [hi] at h
      exact ih n' t (insert_wellFormed r.1 r.2 n n' hn hi) h

/-- C15 (a wild child absorbs later insertions).  Once a node has a child with `isWild` set,
an `insert` call made on it adds no child: the children keep their number, parts and flags.
Consequently in every trie reached from an empty root by `insert` calls, every node has
children with pairwise distinct parts, no child but the last is wild (at most one wild child,
and it is the last), and a child is wild exactly when its part begins with `':'` or `'*'`. -/
theorem wild_child_absorbs (routes : List Route) (t : node)
    (hbuild : insertAll emptyRoot routes = some t) :
    (∀ (n n' : node) (pattern : String) (segs : List String),
      (∃ c ∈ n.children, c.isWild = true) → n.insert pattern segs 0 = some n' →
        labels n'.children = labels n.children) ∧
    ∀ ch m, Chain t ch m →
      ((labels m.children).map Prod.fst).Nodup ∧
      (∀ x ∈ (labels m.children).dropLast, x.2 = false) ∧
      ∀ x ∈ labels m.children, x.2 = isWildPart x.1 := by
  refine ⟨fun n n' pattern segs hw h => insert_labels_of_wild n n' pattern segs hw h, ?_⟩
  intro ch m hch
  have hroot : WellFormed emptyRoot :=
    wellFormed_leaf "" "" false
  exact (wellFormed_children
    (wellFormed_chain hch (wellFormed_insertAll routes emptyRoot t hroot hbuild))).1

/-- C15, witness: `/a`, `/:x`, `/b`, `/:y/c` in this order; the root keeps the two children
`a` and `:x`. -/
theorem wild_child_absorbs_witness :
    (∀ (n n' : node) (pattern : String) (segs : List String),
      (∃ c ∈ n.children, c.isWild = true) → n.insert pattern segs 0 = some n' →
        labels n'.children = labels n.children) ∧
    ∀ ch m, Chain (node.mk "" "" [node.mk "/a" "a" [] false,
        node.mk "/b" ":x" [node.mk "/:y/c" "c" [] false] true] false) ch m →
      ((labels m.children).map Prod.fst).Nodup ∧
      (∀ x ∈ (labels m.children).dropLast, x.2 = false) ∧
      ∀ x ∈ labels m.children, x.2 = isWildPart x.1 :=
  wild_child_absorbs [("/a", ["a"]), ("/:x", [":x"]), ("/b", ["b"]), ("/:y/c", [":y", "c"])]
    _ rfl

/-! ### A wildcard needs a segment -/

theorem lineTrie_search_short (pattern star : String) :
    ∀ (lits : List String), (∀ l ∈ lits, isLiteral l = true) →
    ∀ (part : String) (w : Bool), isStar part = false →
      (lineTrie pattern part w (lits ++ [star])).search lits 0 = some none := by
  intro lits
  induction lits with
  | nil =>
    intro _ part w _
    rw [search_nil]
    rfl
  | cons l ls ih =>
    intro hlits part w hpart
    have hl := hlits l (List.mem_cons_self l ls)
    have hrec := ih (fun x hx => hlits x (List.mem_cons_of_mem l hx)) l (isWildPart l)
      (isLiteral_not_star hl)
    simp only [List.cons_append]
    rw [search_cons, if_neg (by rw [lineTrie_part, hasPrefix_star, hpart]; simp)]
    simp only [lineTrie, node.matchChildren, children_mk, List.filter_cons, lineTrie_matches,
      beq_self_eq_true, Bool.true_or, if_true, List.filter_nil, firstResult_singleton]
    exact hrec

/-- C18 (a wildcard needs at least one segment).  For every pattern made of `k >= 0` literal
segments followed by a final `*name` segment, inserted alone into an empty root, searching
the path made of exactly the `k` literal segments returns `nil`. -/
theorem wildcard_needs_segment (pattern : String) (lits : List String) (star : String)
    (hlits : ∀ l ∈ lits, isLiteral l = true) (hstar : isStar star = true) :
    ∃ t, emptyRoot.insert pattern (lits ++ [star]) 0 = some t ∧
      t.search lits 0 = some none := by
  have hne : ∀ s ∈ lits ++ [star], s ≠ "" := by
    intro s hs
    rcases List.mem_append.mp hs with h | h
    · exact isLiteral_ne_empty (hlits s h)
    · rw [List.mem_singleton.mp h]; exact isStar_ne_empty hstar
  exact ⟨_, insert_emptyRoot pattern _ hne,
    lineTrie_search_short pattern star lits hlits "" false rfl⟩

/-- C18, witness: `/static/*filepath` and the path `[static]`. -/
theorem wildcard_needs_segment_witness :
    ∃ t, emptyRoot.insert "/static/*filepath" (["static"] ++ ["*filepath"]) 0 = some t ∧
      t.search ["static"] 0 = some none :=
  wildcard_needs_segment "/static/*filepath" ["static"] "*filepath" (by decide) (by decide)

/-! ### A trie of literal routes is a map -/

theorem resPattern_firstResult {f : node → Option (Option node)}
    (htotal : ∀ c, ∃ r, f c = some r) :
    ∀ cs : List node,
      resPattern (firstResult f cs) = cs.findSome? fun c => resPattern (f c) := by
  intro cs
  induction cs with
  | nil => rfl
  | cons c cs ih =>
    obtain ⟨r, hr⟩ := htotal c
    cases r with
    | none =>
      rw [firstResult, hr, List.findSome?_cons, hr]
      exact ih
    | some m =>
      rw [firstResult, hr, List.findSome?_cons, hr]
      rfl

theorem resPattern_search_nil (n : node) :
    resPattern (n.search [] 0) = if n.pattern = "" then none else some n.pattern := by
  rw [search_nil]
  split <;> rfl

theorem resPattern_search_cons (n : node) (p : String) (ps : List String)
    (hstar : isStar n.part = false) :
    resPattern (n.search (p :: ps) 0)
      = (n.children.filter (matchesPart p)).findSome? fun c => resPattern (c.search ps 0) := by
  rw [search_cons, if_neg (by rw [hasPrefix_star, hstar]; simp)]
  exact resPattern_firstResult (fun c => search_total c ps) _

theorem filter_replaceFirst_same {p : node → Bool} {c c' : node} (hc' : p c' = true) :
    ∀ l : List node, l.find? p = some c →
      ∃ rest, l.filter p = c :: rest ∧ (replaceFirst p c' l).filter p = c' :: rest := by
  intro l
  induction l with
  | nil => intro h; cases h
  | cons x xs ih =>
    intro h
    by_cases hx : p x = true
    · rw [List.find?_cons, hx] at h
      simp only [Option.some.injEq] at h
      subst h
      exact ⟨xs.filter p, List.filter_cons_of_pos hx, by
        simp only [replaceFirst, hx, if_true]
        exact List.filter_cons_of_pos hc'⟩
    · have hx' : p x = false := by simpa using hx
      rw [List.find?_cons, hx'] at h
      obtain ⟨rest, h1, h2⟩ := ih h
      exact ⟨rest, by rw [List.filter_cons_of_neg hx]; exact h1, by
        simp only [replaceFirst, hx', Bool.false_eq_true, if_false]
        rw [List.filter_cons_of_neg hx]; exact h2⟩

theorem filter_replaceFirst_other {p q : node → Bool} {c c' : node} (hc : p c = false)
    (hc' : p c' = false) :
    ∀ l : List node, l.find? q = some c → (replaceFirst q c' l).filter p = l.filter p := by
  intro l
  induction l with
  | nil => intro h; cases h
  | cons x xs ih =>
    intro h
    by_cases hx : q x = true
    · rw [List.find?_cons, hx] at h
      simp only [Option.some.injEq] at h
      subst h
      simp only [replaceFirst, hx, if_true]
      rw [List.filter_cons_of_neg (by simp [hc']), List.filter_cons_of_neg (by simp [hc])]
    · have hx' : q x = false := by simpa using hx
      rw [List.find?_cons, hx'] at h
      simp only [replaceFirst, hx', Bool.false_eq_true, if_false, List.filter_cons, ih h]

/-- In a trie of literal nodes, an `insert` of a literal route changes the answer of `search`
for the route's own segment list only. -/
theorem insert_resPattern (pattern : String) (hpat : pattern ≠ "") :
    ∀ (segs : List String) (n n' : node),
      AllBelow (fun x => isLiteral x.1 = true ∧ x.2 = false) n → isStar n.part = false →
      (∀ s ∈ segs, isLiteral s = true) → n.insert pattern segs 0 = some n' →
      ∀ q, resPattern (n'.search q 0)
        = if q = segs then some pattern else resPattern (n.search q 0) := by
  intro segs
  induction segs with
  | nil =>
    intro n n' _ hstar _ h q
    rw [insert_nil] at h
    simp only [Option.some.injEq] at h
    subst h
    cases q with
    | nil => rw [resPattern_search_nil]; simp [node.pattern, hpat]
    | cons p ps =>
      rw [resPattern_search_cons (node.mk pattern n.part n.children n.isWild) p ps hstar,
        resPattern_search_cons n p ps hstar, children_mk]
      simp
  | cons s ss ih =>
    intro n n' hn hstar hlit h q
    have hs := hlit s (List.mem_cons_self s ss)
    have hss : ∀ x ∈ ss, isLiteral x = true := fun x hx => hlit x (List.mem_cons_of_mem s hx)
    have hn' := (allBelow_iff _ _).mp hn
    rcases insert_cases n n' pattern (s :: ss) h with ⟨hnil, _⟩ |
      ⟨s', ss', child, child', hseg, hchild, hci, rfl⟩ |
      ⟨s', ss', child', hseg, hnone, _, hci, rfl⟩
    · cases hnil
    · cases hseg
      obtain ⟨hmem, hmatch⟩ := matchChild_some hchild
      obtain ⟨hp, hw⟩ := insert_part_isWild child child' pattern ss hci
      obtain ⟨⟨hclit, hcw0⟩, hcbelow⟩ := hn' child hmem
      have hcw : child.isWild = false := hcw0
      have hcp : child.part = s := by simpa [matchesPart, hcw] using hmatch
      have hcstar : isStar child.part = false := isLiteral_not_star hclit
      have hrec := ih child child' hcbelow hcstar hss hci
      cases q with
      | nil =>
        rw [resPattern_search_nil, resPattern_search_nil]
        simp [node.pattern]
      | cons p ps =>
        rw [resPattern_search_cons (node.mk n.pattern n.part _ n.isWild) p ps hstar,
          resPattern_search_cons n p ps hstar, children_mk]
        unfold node.matchChild at hchild
        by_cases hps : p = s
        · subst hps
          obtain ⟨rest, h1, h2⟩ := filter_replaceFirst_same
            (by rw [matchesPart_congr p hp hw]; exact hmatch) n.children hchild
          rw [h1, h2, List.findSome?_cons, List.findSome?_cons, hrec ps]
          by_cases hpss : ps = ss
          · subst hpss; simp
          · simp [hpss]
        · have hnm : matchesPart p child = false := by
            simp only [matchesPart, hcw, Bool.or_false, hcp]
            simpa using fun h => hps h.symm
          rw [filter_replaceFirst_other hnm (by rw [matchesPart_congr p hp hw]; exact hnm)
            n.children hchild]
          simp [hps]
    · cases hseg
      obtain ⟨hp, hw⟩ := insert_part_isWild _ child' pattern ss hci
      have hfresh : AllBelow (fun x => isLiteral x.1 = true ∧ x.2 = false)
          (node.mk "" s [] (isWildPart s)) := by
        rw [allBelow_iff]
        intro d hd
        cases hd
      have hfstar : isStar (node.mk "" s [] (isWildPart s)).part = false :=
        isLiteral_not_star hs
      have hrec := ih _ child' hfresh hfstar hss hci
      have hfreshSearch : ∀ ps, resPattern ((node.mk "" s [] (isWildPart s)).search ps 0) = none := by
        intro ps
        cases ps with
        | nil => rw [resPattern_search_nil]; rfl
        | cons x xs =>
          rw [resPattern_search_cons _ x xs hfstar]
          rfl
      cases q with
      | nil =>
        rw [resPattern_search_nil, resPattern_search_nil]
        simp [node.pattern]
      | cons p ps =>
        rw [resPattern_search_cons (node.mk n.pattern n.part _ n.isWild) p ps hstar,
          resPattern_search_cons n p ps hstar, children_mk, List.filter_append,
          List.findSome?_append]
        have hmp : matchesPart p child' = (s == p) := by
          rw [matchesPart, hp, hw]
          simp [node.part, node.isWild, isLiteral_not_wild hs]
        by_cases hps : p = s
        · subst hps
          unfold node.matchChild at hnone
          have hnil : n.children.filter (matchesPart p) = [] := by
            rw [List.filter_eq_nil_iff]
            exact List.find?_eq_none.mp hnone
          rw [hnil]
          simp only [List.filter_cons, hmp, beq_self_eq_true, if_true, List.filter_nil,
            List.findSome?_nil, List.findSome?_cons, hrec ps, hfreshSearch]
          by_cases hpss : ps = ss
          · subst hpss; simp
          · simp [hpss]
        · have hne : (s == p) = false := by simpa using fun h => hps h.symm
          simp only [List.filter_cons, hmp, hne, Bool.false_eq_true, if_false, List.filter_nil,
            List.findSome?_nil, Option.or_none]
          simp [hps]

theorem insertAll_resPattern : ∀ (rs : List Route) (n t : node),
    AllBelow (fun x => isLiteral x.1 = true ∧ x.2 = false) n → isStar n.part = false →
    (∀ r ∈ rs, r.1 ≠ "" ∧ ∀ s ∈ r.2, isLiteral s = true) → insertAll n rs = some t →
    ∀ q, resPattern (t.search q 0)
      = match mostRecent rs q with
        | some pat => some pat
        | none => resPattern (n.search q 0) := by
  intro rs
  induction rs with
  | nil =>
    intro n t _ _ _ h q
    simp only [insertAll, Option.some.injEq] at h
    subst h
    rfl
  | cons r rs ih =>
    intro n t hn hstar hrs h q
    rw [insertAll] at h
    cases hi : n.insert r.1 r.2 0 with
    | none => rw [hi] at h; cases h
    | some n' =>
      rw [hi] at h
      obtain ⟨hrp, hrl⟩ := hrs r (List.mem_cons_self r rs)
      have hn1 : AllBelow (fun x => isLiteral x.1 = true ∧ x.2 = false) n' :=
        insert_allBelow _ r.1 r.2 n n' (fun s hs => ⟨hrl s hs, isLiteral_not_wild (hrl s hs)⟩)
          hn hi
      have hstar1 : isStar n'.part = false := by
        rw [(insert_part_isWild n n' r.1 r.2 hi).1]; exact hstar
      rw [ih n' t hn1 hstar1 (fun x hx => hrs x (List.mem_cons_of_mem r hx)) h q,
        insert_resPattern r.1 hrp r.2 n n' hn hstar hrl hi q]
      simp only [mostRecent]
      cases mostRecent rs q with
      | some pat => rfl
      | none =>
        by_cases hq : r.2 = q
        · simp [hq]
        · have hq' : ¬ q = r.2 := fun h => hq h.symm
          simp [hq, hq']

theorem resPattern_some {r : Option (Option node)} {pat : String}
    (h : resPattern r = some pat) : ∃ m, r = some (some m) ∧ m.pattern = pat := by
  cases r with
  | none => cases h
  | some r' =>
    cases r' with
    | none => cases h
    | some m => exact ⟨m, rfl, Option.some.inj h⟩

/-- C17 (a trie of literal routes is a map).  For every sequence of `insert` calls from an
empty root in which every pattern is non-empty and every segment is non-empty and literal,
and for every path `q`: `search(q, 0)` returns a node whose pattern is the pattern of the most
recent call whose segment list is `q`, and returns `nil` when no call had the segment
list `q`. -/
theorem literal_trie_is_map (routes : List Route) (q : List String)
    (hroutes : ∀ r ∈ routes, r.1 ≠ "" ∧ ∀ s ∈ r.2, isLiteral s = true) :
    ∃ t, insertAll emptyRoot routes = some t ∧
      match mostRecent routes q with
      | some pat => ∃ m, t.search q 0 = some (some m) ∧ m.pattern = pat
      | none => t.search q 0 = some none := by
  obtain ⟨t, ht⟩ := insertAll_total routes emptyRoot
    (fun r hr s hs => isLiteral_ne_empty ((hroutes r hr).2 s hs))
  refine ⟨t, ht, ?_⟩
  have hroot : AllBelow (fun x => isLiteral x.1 = true ∧ x.2 = false) emptyRoot := by
    intro ch m0 hch x hx
    rw [(emptyRoot_chain hch).1] at hx
    cases hx
  have hres := insertAll_resPattern routes emptyRoot t hroot rfl hroutes ht q
  have hempty : resPattern (emptyRoot.search q 0) = none := by
    cases q with
    | nil => rfl
    | cons x xs => rw [resPattern_search_cons emptyRoot x xs rfl]; rfl
  cases hmr : mostRecent routes q with
  | some pat =>
    rw [hmr] at hres
    exact resPattern_some hres
  | none =>
    rw [hmr, hempty] at hres
    obtain ⟨r, hr⟩ := search_total t q
    cases r with
    | none => exact hr
    | some m => rw [hr] at hres; cases hres

/-- C17, witness: `[a, b]` registered twice, then searched; the later pattern answers. -/
theorem literal_trie_is_map_witness :
    ∃ t, insertAll emptyRoot [("/a/b", ["a", "b"]), ("/a", ["a"]), ("/v2", ["a", "b"])]
        = some t ∧
      match mostRecent [("/a/b", ["a", "b"]), ("/a", ["a"]), ("/v2", ["a", "b"])] ["a", "b"] with
      | some pat => ∃ m, t.search ["a", "b"] 0 = some (some m) ∧ m.pattern = pat
      | none => t.search ["a", "b"] 0 = some none :=
  literal_trie_is_map [("/a/b", ["a", "b"]), ("/a", ["a"]), ("/v2", ["a", "b"])] ["a", "b"]
    (by decide)

/-! ### Routes and their own nodes -/

theorem allPatternsList_mem {c : node} {pat : String} :
    ∀ {cs : List node}, c ∈ cs → pat ∈ allPatterns c → pat ∈ allPatternsList cs := by
  intro cs
  induction cs with
  | nil => intro h; cases h
  | cons x xs ih =>
    intro hc hp
    rw [allPatternsList]
    rcases List.mem_cons.mp hc with rfl | hc
    · exact List.mem_append_left _ hp
    · exact List.mem_append_right _ (ih hc hp)

theorem chain_pattern_mem {n m : node} {ch : List (String × Bool)} (h : Chain n ch m) :
    m.pattern ∈ allPatterns n := by
  induction h with
  | here n => cases n; simp [allPatterns, node.pattern]
  | @child n c m ch hc _ ih =>
    cases n with
    | mk pat part cs w =>
      rw [allPatterns]
      exact List.mem_cons_of_mem _ (allPatternsList_mem hc ih)

theorem find_replaceFirst_ne {p q : node → Bool} {c d d' : node} (hd' : p d' = p d)
    (hcd : c ≠ d) :
    ∀ {l : List node}, l.find? q = some d → l.find? p = some c →
      (replaceFirst q d' l).find? p = some c := by
  intro l
  induction l with
  | nil => intro h; cases h
  | cons x xs ih =>
    intro hq hp
    by_cases hx : q x = true
    · rw [List.find?_cons, hx] at hq
      simp only [Option.some.injEq] at hq
      subst hq
      have hpx : p x = false := by
        by_contra hpx
        have hpx' : p x = true := by simpa using hpx
        rw [List.find?_cons, hpx'] at hp
        exact hcd (Option.some.inj hp).symm
      rw [List.find?_cons, hpx] at hp
      simp only [replaceFirst, hx, if_true, List.find?_cons, hd', hpx]
      exact hp
    · have hx' : q x = false := by simpa using hx
      rw [List.find?_cons, hx'] at hq
      simp only [replaceFirst, hx', Bool.false_eq_true, if_false, List.find?_cons]
      by_cases hpx : p x = true
      · rw [List.find?_cons, hpx] at hp
        rw [hpx]
        exact hp
      · have hpx' : p x = false := by simpa using hpx
        rw [List.find?_cons, hpx'] at hp
        rw [hpx']
        exact ih hq hp

/-- A route inserted by an exact descent has its own node. -/
theorem insert_exactAt_new (pattern : String) : ∀ (segs : List String) (n n' : node),
    exactPath n segs = true → n.insert pattern segs 0 = some n' → ExactAt n' segs pattern := by
  intro segs
  induction segs with
  | nil =>
    intro n n' _ h
    rw [insert_nil] at h
    simp only [Option.some.injEq] at h
    subst h
    rfl
  | cons s ss ih =>
    intro n n' hex h
    rcases insert_cases n n' pattern (s :: ss) h with ⟨hnil, _⟩ |
      ⟨s', ss', child, child', hseg, hchild, hci, rfl⟩ |
      ⟨s', ss', child', hseg, hnone, _, hci, rfl⟩
    · cases hnil
    · cases hseg
      obtain ⟨_, hmatch⟩ := matchChild_some hchild
      obtain ⟨hp, hw⟩ := insert_part_isWild child child' pattern ss hci
      obtain ⟨hcp, hcex⟩ := exactPath_cons_some hchild hex
      refine ⟨child', ?_, by rw [hp, hcp], ih child child' hcex hci⟩
      exact find_replaceFirst_same (by rw [matchesPart_congr s hp hw]; exact hmatch) hchild
    · cases hseg
      obtain ⟨hp, hw⟩ := insert_part_isWild _ child' pattern ss hci
      refine ⟨child', ?_, by rw [hp]; rfl, ih _ child' (exactPath_leaf _ _ _ ss) hci⟩
      have hm : matchesPart s child' = true := by
        rw [matchesPart, hp]
        simp [node.part]
      unfold node.matchChild at hnone ⊢
      rw [children_mk, List.find?_append, hnone, List.find?_cons, hm]
      rfl

/-- A route keeps its own node when a route of another segment list is inserted by an exact
descent. -/
theorem insert_exactAt_keep (pattern pattern2 : String) :
    ∀ (segs segs2 : List String) (n n' : node), ExactAt n segs pattern → segs2 ≠ segs →
      exactPath n segs2 = true → n.insert pattern2 segs2 0 = some n' →
        ExactAt n' segs pattern := by
  intro segs
  induction segs with
  | nil =>
    intro segs2 n n' hin hne _ h
    rcases insert_cases n n' pattern2 segs2 h with ⟨hnil, rfl⟩ |
      ⟨_, _, _, _, _, _, _, rfl⟩ | ⟨_, _, _, _, _, _, _, rfl⟩
    · exact absurd hnil hne
    · exact hin
    · exact hin
  | cons s ss ih =>
    intro segs2 n n' hin hne hex h
    obtain ⟨c, hc, hcp, hcin⟩ := hin
    rcases insert_cases n n' pattern2 segs2 h with ⟨_, rfl⟩ |
      ⟨t, ts, d, d', rfl, hd, hdi, rfl⟩ | ⟨t, ts, d', rfl, hnone, _, hdi, rfl⟩
    · exact ⟨c, hc, hcp, hcin⟩
    · obtain ⟨hp, hw⟩ := insert_part_isWild d d' pattern2 ts hdi
      obtain ⟨hdp, hdex⟩ := exactPath_cons_some hd hex
      by_cases hts : t = s
      · subst hts
        have hdc : d = c := by
          rw [hc] at hd
          exact (Option.some.inj hd).symm
        subst hdc
        refine ⟨d', ?_, by rw [hp, hcp], ?_⟩
        · exact find_replaceFirst_same
            (by rw [matchesPart_congr t hp hw]; exact (matchChild_some hc).2) hc
        · exact ih ts d d' hcin (fun h => hne (by rw [h])) hdex hdi
      · have hcd : c ≠ d := by
          intro hcd
          rw [hcd, hdp] at hcp
          exact hts hcp
        refine ⟨c, ?_, hcp, hcin⟩
        exact find_replaceFirst_ne (matchesPart_congr s hp hw) hcd hd hc
    · refine ⟨c, ?_, hcp, hcin⟩
      unfold node.matchChild at hc ⊢
      rw [children_mk, List.find?_append, hc]
      rfl

theorem exactAt_chain : ∀ (segs : List String) (n : node) (pat : String),
    ExactAt n segs pat → ∃ ch m, Chain n ch m ∧ ch.map Prod.fst = segs ∧ m.pattern = pat := by
  intro segs
  induction segs with
  | nil => intro n pat h; exact ⟨[], n, Chain.here n, rfl, h⟩
  | cons s ss ih =>
    intro n pat h
    obtain ⟨c, hc, hcp, hcin⟩ := h
    obtain ⟨ch, m, hch, hparts, hm⟩ := ih c pat hcin
    exact ⟨(c.part, c.isWild) :: ch, m, Chain.child (matchChild_some hc).1 hch,
      by simp [hcp, hparts], hm⟩

theorem exactAt_insertAll (pattern : String) (segs : List String) :
    ∀ (rs : List Route) (n t : node), ExactAt n segs pattern → (∀ r ∈ rs, r.2 ≠ segs) →
      exactAll n rs = true → insertAll n rs = some t → ExactAt t segs pattern := by
  intro rs
  induction rs with
  | nil =>
    intro n t hn _ _ h
    simp only [insertAll, Option.some.injEq] at h
    subst h
    exact hn
  | cons r rs ih =>
    intro n t hn hne hex h
    rw [insertAll] at h
    cases hi : n.insert r.1 r.2 0 with
    | none => rw [hi] at h; cases h
    | some n' =>
      rw [hi] at h
      simp only [exactAll, hi, Bool.and_eq_true] at hex
      exact ih n' t
        (insert_exactAt_keep pattern r.1 segs r.2 n n' hn (hne r (List.mem_cons_self r rs))
          hex.1 hi)
        (fun x hx => hne x (List.mem_cons_of_mem r hx)) hex.2 h

theorem exactAt_all : ∀ (rs : List Route) (n t : node),
    rs.Pairwise (fun a b => a.2 ≠ b.2) → exactAll n rs = true → insertAll n rs = some t →
      ∀ r ∈ rs, ExactAt t r.2 r.1 := by
  intro rs
  induction rs with
  | nil => intro n t _ _ _ r hr; cases hr
  | cons r0 rs ih =>
    intro n t hpw hex h r hr
    rw [insertAll] at h
    cases hi : n.insert r0.1 r0.2 0 with
    | none => rw [hi] at h; cases h
    | some n' =>
      rw [hi] at h
      simp only [exactAll, hi, Bool.and_eq_true] at hex
      rw [List.pairwise_cons] at hpw
      rcases List.mem_cons.mp hr with rfl | hr
      · exact exactAt_insertAll r.1 r.2 rs n' t (insert_exactAt_new r.1 r.2 n n' hex.1 hi)
          (fun x hx => (hpw.1 x hx).symm) hex.2 h
      · exact ih n' t hpw.2 hex.2 h r hr

/-- C14, counterexample: `/:x` then `/a`, of different patterns and segment lists.  Both
calls end at the `:x` node; afterwards no node has the pattern `/:x`. -/
theorem unique_marker_counterexample :
    insertAll emptyRoot [("/:x", [":x"]), ("/a", ["a"])]
      = some (node.mk "" "" [node.mk "/a" ":x" [] true] false) ∧
    List.Pairwise (fun (a b : Route) => a.1 ≠ b.1) [("/:x", [":x"]), ("/a", ["a"])] ∧
    List.Pairwise (fun (a b : Route) => a.2 ≠ b.2) [("/:x", [":x"]), ("/a", ["a"])] ∧
    ¬ ∃ ch m, Chain (node.mk "" "" [node.mk "/a" ":x" [] true] false) ch m ∧
        m.pattern = "/:x" := by
  refine ⟨rfl, by decide, by decide, ?_⟩
  rintro ⟨ch, m, hch, hm⟩
  have hmem := chain_pattern_mem hch
  rw [hm] at hmem
  revert hmem
  decide

/-- C14 (unique terminal marker), amended: for every sequence of `insert` calls from an empty
root in which the routes have pairwise different segment lists and no call descends into a
`:name` or `*name` child for a segment other than that child's part, each registered route
is stamped on its own node: after all insertions its pattern is the pattern of the node at
the end of the chain of children whose parts are the route's segments, a chain that no other
route of the sequence has. -/
theorem unique_terminal_marker (routes : List Route) (t : node)
    (hsegs : routes.Pairwise (fun a b => a.2 ≠ b.2))
    (hexact : exactAll emptyRoot routes = true)
    (hbuild : insertAll emptyRoot routes = some t) :
    ∀ r ∈ routes, ∃ ch m, Chain t ch m ∧ ch.map Prod.fst = r.2 ∧ m.pattern = r.1 ∧
      ∀ r' ∈ routes, r' ≠ r → r'.2 ≠ ch.map Prod.fst := by
  intro r hr
  obtain ⟨ch, m, hch, hparts, hm⟩ :=
    exactAt_chain r.2 t r.1 (exactAt_all routes emptyRoot t hsegs hexact hbuild r hr)
  refine ⟨ch, m, hch, hparts, hm, ?_⟩
  intro r' hr' hne
  rw [hparts]
  exact List.Pairwise.forall (fun a b hab => Ne.symm hab) hsegs hr' hr hne

/-- C14, witness: `/a/b`, `/a/:id`, `/c`, each call creating its own last node. -/
theorem unique_terminal_marker_witness :
    exactAll emptyRoot [("/a/b", ["a", "b"]), ("/a/:id", ["a", ":id"]), ("/c", ["c"])] = true ∧
    ∀ r ∈ [("/a/b", ["a", "b"]), ("/a/:id", ["a", ":id"]), ("/c", ["c"])],
      ∃ ch m, Chain (node.mk "" "" [node.mk "" "a" [node.mk "/a/b" "b" [] false,
          node.mk "/a/:id" ":id" [] true] false, node.mk "/c" "c" [] false] false) ch m ∧
        ch.map Prod.fst = r.2 ∧ m.pattern = r.1 ∧
        ∀ r' ∈ [("/a/b", ["a", "b"]), ("/a/:id", ["a", ":id"]), ("/c", ["c"])],
          r' ≠ r → r'.2 ≠ ch.map Prod.fst :=
  ⟨rfl,
    unique_terminal_marker [("/a/b", ["a", "b"]), ("/a/:id", ["a", ":id"]), ("/c", ["c"])] _
      (by decide) rfl rfl⟩

/-! ### `Use` and the other groups -/

/-- C16 (`Use` touches only its own group).  After `g.Use(hs...)` the middleware list of `g`
is its old list followed by `hs`, the prefix and parent of `g` are unchanged, every other
group is unchanged, the group list has the same groups at the same positions, and the route
table is unchanged. -/
theorem use_frame (e e' : Engine HandlerFunc) (g : Nat) (hs : List HandlerFunc)
    (h : e.Use g hs = some e') :
    e'.router = e.router ∧ e'.groups.length = e.groups.length ∧
    (∃ grp, e.groups[g]? = some grp ∧
      e'.groups[g]? = some { grp with middlewares := grp.middlewares ++ hs }) ∧
    ∀ i : Nat, i ≠ g → e'.groups[i]? = e.groups[i]? := by
  unfold Engine.Use at h
  cases hg : e.groups[g]? with
  | none => rw [hg] at h; cases h
  | some grp =>
    rw [hg] at h
    simp only [Option.some.injEq] at h
    subst h
    have hlt : g < e.groups.length := (List.getElem?_eq_some.mp hg).1
    refine ⟨rfl, by simp, ⟨grp, rfl, by simp [hlt]⟩, ?_⟩
    intro i hi
    exact List.getElem?_set_ne (fun h => hi h.symm)

/-- C16, witness: `Use` on the group `/api`, which has a child group. -/
theorem use_frame_witness :
    ({ router := [("GET", "/api/users", "users")],
       groups := [{ pfx := "", middlewares := ["log"], parent := none },
                  { pfx := "/api", middlewares := ["auth", "gzip"], parent := some 0 },
                  { pfx := "/api/v1", middlewares := [], parent := some 1 }] }
      : Engine String).router
      = ({ router := [("GET", "/api/users", "users")],
           groups := [{ pfx := "", middlewares := ["log"], parent := none },
                      { pfx := "/api", middlewares := ["auth"], parent := some 0 },
                      { pfx := "/api/v1", middlewares := [], parent := some 1 }] }
          : Engine String).router ∧
    ({ router := [("GET", "/api/users", "users")],
       groups := [{ pfx := "", middlewares := ["log"], parent := none },
                  { pfx := "/api", middlewares := ["auth", "gzip"], parent := some 0 },
                  { pfx := "/api/v1", middlewares := [], parent := some 1 }] }
      : Engine String).groups.length
      = ({ router := [("GET", "/api/users", "users")],
           groups := [{ pfx := "", middlewares := ["log"], parent := none },
                      { pfx := "/api", middlewares := ["auth"], parent := some 0 },
                      { pfx := "/api/v1", middlewares := [], parent := some 1 }] }
          : Engine String).groups.length ∧
    (∃ grp, ({ router := [("GET", "/api/users", "users")],
               groups := [{ pfx := "", middlewares := ["log"], parent := none },
                          { pfx := "/api", middlewares := ["auth"], parent := some 0 },
                          { pfx := "/api/v1", middlewares := [], parent := some 1 }] }
              : Engine String).groups[1]? = some grp ∧
      ({ router := [("GET", "/api/users", "users")],
         groups := [{ pfx := "", middlewares := ["log"], parent := none },
                    { pfx := "/api", middlewares := ["auth", "gzip"], parent := some 0 },
                    { pfx := "/api/v1", middlewares := [], parent := some 1 }] }
        : Engine String).groups[1]?
        = some { grp with middlewares := grp.middlewares ++ ["gzip"] }) ∧
    ∀ i : Nat, i ≠ 1 →
      ({ router := [("GET", "/api/users", "users")],
         groups := [{ pfx := "", middlewares := ["log"], parent := none },
                    { pfx := "/api", middlewares := ["auth", "gzip"], parent := some 0 },
                    { pfx := "/api/v1", middlewares := [], parent := some 1 }] }
        : Engine String).groups[i]?
      = ({ router := [("GET", "/api/users", "users")],
           groups := [{ pfx := "", middlewares := ["log"], parent := none },
                      { pfx := "/api", middlewares := ["auth"], parent := some 0 },
                      { pfx := "/api/v1", middlewares := [], parent := some 1 }] }
          : Engine String).groups[i]? :=
  use_frame
    { router := [("GET", "/api/users", "users")],
      groups := [{ pfx := "", middlewares := ["log"], parent := none },
                 { pfx := "/api", middlewares := ["auth"], parent := some 0 },
                 { pfx := "/api/v1", middlewares := [], parent := some 1 }] }
    _ 1 ["gzip"] rfl

/-! ### Ancestors -/

/-- What a registration call does to the group list: the groups that were there stay at
their positions with their prefix and parent, and the only group that can be new is the one
`Group` appends, whose parent is the group the call is made on. -/
theorem call_groups (e e' : Engine HandlerFunc) (c : Call HandlerFunc)
    (h : e.call c = some e') :
    (∀ (i : Nat) (grp : RouterGroup HandlerFunc), e.groups[i]? = some grp →
      ∃ grp', e'.groups[i]? = some grp' ∧ grp'.pfx = grp.pfx ∧ grp'.parent = grp.parent) ∧
    (∀ (i : Nat) (grp' : RouterGroup HandlerFunc), e'.groups[i]? = some grp' →
      (∃ grp, e.groups[i]? = some grp ∧ grp'.pfx = grp.pfx ∧ grp'.parent = grp.parent) ∨
      (i = e.groups.length ∧ ∃ (g : Nat) (pg : RouterGroup HandlerFunc) (suffix : String),
        e.groups[g]? = some pg ∧ grp'.pfx = pg.pfx ++ suffix ∧ grp'.parent = some g)) := by
  have hsame : e'.groups = e.groups →
      (∀ (i : Nat) (grp : RouterGroup HandlerFunc), e.groups[i]? = some grp →
        ∃ grp', e'.groups[i]? = some grp' ∧ grp'.pfx = grp.pfx ∧ grp'.parent = grp.parent) ∧
      (∀ (i : Nat) (grp' : RouterGroup HandlerFunc), e'.groups[i]? = some grp' →
        (∃ grp, e.groups[i]? = some grp ∧ grp'.pfx = grp.pfx ∧ grp'.parent = grp.parent) ∨
        (i = e.groups.length ∧ ∃ (g : Nat) (pg : RouterGroup HandlerFunc) (suffix : String),
          e.groups[g]? = some pg ∧ grp'.pfx = pg.pfx ++ suffix ∧ grp'.parent = some g)) := by
    intro hg
    rw [hg]
    exact ⟨fun i grp hi => ⟨grp, hi, rfl, rfl⟩, fun i grp' hi => Or.inl ⟨grp', hi, rfl, rfl⟩⟩
  cases c with
  | group g suffix =>
    simp only [Engine.call, Engine.Group] at h
    cases hgg : e.groups[g]? with
    | none => rw [hgg] at h; cases h
    | some pg =>
      rw [hgg] at h
      simp only [Option.map_some', Option.some.injEq] at h
      subst h
      constructor
      · intro i grp hi
        have hlt : i < e.groups.length := (List.getElem?_eq_some.mp hi).1
        exact ⟨grp, by simp only [List.getElem?_append_left hlt, hi], rfl, rfl⟩
      · intro i grp' hi
        simp only at hi
        rcases Nat.lt_or_ge i e.groups.length with hlt | hge
        · rw [List.getElem?_append_left hlt] at hi
          exact Or.inl ⟨grp', hi, rfl, rfl⟩
        · rw [List.getElem?_append_right hge] at hi
          have hzero : i - e.groups.length = 0 := by
            by_contra hne
            have hpos : 1 ≤ i - e.groups.length := Nat.one_le_iff_ne_zero.mpr hne
            have hnone : ([({ pfx := pg.pfx ++ suffix, middlewares := [], parent := some g }
                : RouterGroup HandlerFunc)])[i - e.groups.length]? = none :=
              List.getElem?_eq_none (by simpa using hpos)
            rw [hnone] at hi
            cases hi
          rw [hzero] at hi
          simp only [List.getElem?_cons_zero, Option.some.injEq] at hi
          subst hi
          exact Or.inr ⟨by omega, g, pg, suffix, hgg, rfl, rfl⟩
  | use g mws =>
    have hu : e.Use g mws = some e' := h
    obtain ⟨_, hlen, ⟨grp0, hg0, hg0'⟩, hother⟩ := use_frame e e' g mws hu
    constructor
    · intro i grp hi
      by_cases hig : i = g
      · subst hig
        rw [hg0] at hi
        cases hi
        exact ⟨_, hg0', rfl, rfl⟩
      · exact ⟨grp, by rw [hother i hig]; exact hi, rfl, rfl⟩
    · intro i grp' hi
      by_cases hig : i = g
      · subst hig
        rw [hg0'] at hi
        cases hi
        exact Or.inl ⟨grp0, hg0, rfl, rfl⟩
      · exact Or.inl ⟨grp', by rw [← hother i hig]; exact hi, rfl, rfl⟩
  | addRoute g method comp handler =>
    apply hsame
    simp only [Engine.call, Engine.addRoute] at h
    cases hgg : e.groups[g]? with
    | none => rw [hgg] at h; cases h
    | some grp0 =>
      rw [hgg] at h
      simp only [Option.some.injEq] at h
      subst h
      rfl
  | get g pattern handler =>
    apply hsame
    simp only [Engine.call, Engine.GET, Engine.addRoute] at h
    cases hgg : e.groups[g]? with
    | none => rw [hgg] at h; cases h
    | some grp0 =>
      rw [hgg] at h
      simp only [Option.some.injEq] at h
      subst h
      rfl
  | post g pattern handler =>
    apply hsame
    simp only [Engine.call, Engine.POST, Engine.addRoute] at h
    cases hgg : e.groups[g]? with
    | none => rw [hgg] at h; cases h
    | some grp0 =>
      rw [hgg] at h
      simp only [Option.some.injEq] at h
      subst h
      rfl

theorem wellNested_call (e e' : Engine HandlerFunc) (c : Call HandlerFunc)
    (hn : WellNested e) (h : e.call c = some e') : WellNested e' := by
  obtain ⟨hfwd, hback⟩ := call_groups e e' c h
  intro i grp' p hi hp
  rcases hback i grp' hi with ⟨grp, hgi, hpfx, hpar⟩ | ⟨hlen, g, pg, suffix, hg, hpfx, hpar⟩
  · obtain ⟨hlt, pg, hpg, hpre⟩ := hn i grp p hgi (by rw [← hpar]; exact hp)
    obtain ⟨pg', hpg', hpfx', _⟩ := hfwd p pg hpg
    exact ⟨hlt, pg', hpg', by rw [hpfx', hpfx]; exact hpre⟩
  · rw [hpar] at hp
    cases hp
    obtain ⟨pg', hpg', hpfx', _⟩ := hfwd p pg hg
    refine ⟨by rw [hlen]; exact (List.getElem?_eq_some.mp hg).1, pg', hpg', ?_⟩
    rw [hpfx', hpfx, String.data_append]
    exact List.prefix_append _ _

theorem wellNested_calls : ∀ (cs : List (Call HandlerFunc)) (e e' : Engine HandlerFunc),
    WellNested e → e.calls cs = some e' → WellNested e' := by
  intro cs
  induction cs with
  | nil =>
    intro e e' hn h
    simp only [Engine.calls, Option.some.injEq] at h
    subst h
    exact hn
  | cons c cs ih =>
    intro e e' hn h
    rw [Engine.calls] at h
    cases hc : e.call c with
    | none => rw [hc] at h; cases h
    | some e1 =>
      rw [hc] at h
      exact ih e1 e' (wellNested_call e e1 c hn hc) h

theorem wellNested_new : WellNested (New : Engine HandlerFunc) := by
  intro i grp p hi hp
  cases i with
  | zero =>
    simp only [New, List.getElem?_cons_zero, Option.some.injEq] at hi
    subst hi
    cases hp
  | succ i => simp [New] at hi

theorem ancestor_before {e : Engine HandlerFunc} (hn : WellNested e) {a g : Nat}
    (h : IsAncestor e a g) :
    a < g ∧ ∃ ga gg, e.groups[a]? = some ga ∧ e.groups[g]? = some gg ∧
      ga.pfx.data <+: gg.pfx.data := by
  induction h with
  | parent hg hp =>
    obtain ⟨hlt, pg, hpg, hpre⟩ := hn _ _ _ hg hp
    exact ⟨hlt, pg, _, hpg, hg, hpre⟩
  | step hg hp _ ih =>
    obtain ⟨hlt, pg, hpg, hpre⟩ := hn _ _ _ hg hp
    obtain ⟨hlt', ga, gb, hga, hgb, hpre'⟩ := ih
    rw [hpg] at hgb
    cases hgb
    exact ⟨Nat.lt_trans hlt' hlt, ga, _, hga, hg, List.IsPrefix.trans hpre' hpre⟩

theorem getElem_split {α : Type} : ∀ (l : List α) (i : Nat) (x : α), l[i]? = some x →
    ∃ l1 l2, l = l1 ++ x :: l2 ∧ l1.length = i := by
  intro l
  induction l with
  | nil => intro i x h; simp at h
  | cons y ys ih =>
    intro i x h
    cases i with
    | zero =>
      simp only [List.getElem?_cons_zero, Option.some.injEq] at h
      subst h
      exact ⟨[], ys, rfl, rfl⟩
    | succ i =>
      obtain ⟨l1, l2, hl, hlen⟩ := ih i x (by simpa using h)
      exact ⟨y :: l1, l2, by rw [hl]; rfl, by simp [hlen]⟩

/-- When two groups apply to a path, the middlewares of the one that comes first in the
group list stand before the middlewares of the other in the chain. -/
theorem serveHTTP_order (e : Engine HandlerFunc) (path : String) (a g : Nat)
    (ga gg : RouterGroup HandlerFunc) (hlt : a < g) (hga : e.groups[a]? = some ga)
    (hgg : e.groups[g]? = some gg) (hpa : HasPrefix path ga.pfx = true)
    (hpg : HasPrefix path gg.pfx = true) :
    ∃ before between after,
      e.ServeHTTP path = before ++ ga.middlewares ++ between ++ gg.middlewares ++ after := by
  obtain ⟨l1, l2, hl, hlen1⟩ := getElem_split e.groups a ga hga
  have hgg2 : l2[g - a - 1]? = some gg := by
    rw [hl, List.getElem?_append_right (by omega), hlen1] at hgg
    have hga1 : g - a = (g - a - 1) + 1 := by omega
    rw [hga1, List.getElem?_cons_succ] at hgg
    exact hgg
  obtain ⟨l3, l4, hl2, _⟩ := getElem_split l2 (g - a - 1) gg hgg2
  rw [serveHTTP_eq, hl, hl2]
  refine ⟨((l1.filter fun x => HasPrefix path x.pfx).map fun x => x.middlewares).flatten,
    ((l3.filter fun x => HasPrefix path x.pfx).map fun x => x.middlewares).flatten,
    ((l4.filter fun x => HasPrefix path x.pfx).map fun x => x.middlewares).flatten, ?_⟩
  simp [List.filter_append, List.filter_cons, hpa, hpg, List.append_assoc]

/-- C19 (ancestor middleware nests outside descendants).  For every engine built from `New()`
by registration calls, every group `g` and every ancestor `a` of `g` (following the parent
links): `a` precedes `g` in the group list and the prefix of `a` is a string prefix of the
prefix of `g`; hence for every request path to which the middlewares of `g` apply, those of
`a` apply too, and all of them come before all the middlewares of `g` in the chain
`ServeHTTP` builds. -/
theorem ancestor_nests_outside (cs : List (Call HandlerFunc)) (e : Engine HandlerFunc)
    (a g : Nat) (hcalls : (New : Engine HandlerFunc).calls cs = some e)
    (hanc : IsAncestor e a g) :
    ∃ ga gg, e.groups[a]? = some ga ∧ e.groups[g]? = some gg ∧ a < g ∧
      ga.pfx.data <+: gg.pfx.data ∧
      ∀ path, HasPrefix path gg.pfx = true →
        HasPrefix path ga.pfx = true ∧
        ∃ before between after,
          e.ServeHTTP path
            = before ++ ga.middlewares ++ between ++ gg.middlewares ++ after := by
  have hn := wellNested_calls cs New e wellNested_new hcalls
  obtain ⟨hlt, ga, gg, hga, hgg, hpre⟩ := ancestor_before hn hanc
  refine ⟨ga, gg, hga, hgg, hlt, hpre, ?_⟩
  intro path hpath
  have hpa : HasPrefix path ga.pfx = true := by
    rw [hasPrefix_iff] at hpath ⊢
    exact List.IsPrefix.trans hpre hpath
  exact ⟨hpa, serveHTTP_order e path a g ga gg hlt hga hgg hpa hpath⟩

/-- C19, witness: root with `log`, `/api` with `auth`, `/api/v1` with `v1`; the root is an
ancestor of `/api/v1` through `/api`. -/
theorem ancestor_nests_outside_witness :
    ∃ ga gg,
      ({ router := [],
         groups := [{ pfx := "", middlewares := ["log"], parent := none },
                    { pfx := "/api", middlewares := ["auth"], parent := some 0 },
                    { pfx := "/api/v1", middlewares := ["v1"], parent := some 1 }] }
        : Engine String).groups[0]? = some ga ∧
      ({ router := [],
         groups := [{ pfx := "", middlewares := ["log"], parent := none },
                    { pfx := "/api", middlewares := ["auth"], parent := some 0 },
                    { pfx := "/api/v1", middlewares := ["v1"], parent := some 1 }] }
        : Engine String).groups[2]? = some gg ∧
      0 < 2 ∧ ga.pfx.data <+: gg.pfx.data ∧
      ∀ path, HasPrefix path gg.pfx = true →
        HasPrefix path ga.pfx = true ∧
        ∃ before between after,
          ({ router := [],
             groups := [{ pfx := "", middlewares := ["log"], parent := none },
                        { pfx := "/api", middlewares := ["auth"], parent := some 0 },
                        { pfx := "/api/v1", middlewares := ["v1"], parent := some 1 }] }
            : Engine String).ServeHTTP path
            = before ++ ga.middlewares ++ between ++ gg.middlewares ++ after :=
  ancestor_nests_outside
    [Call.group 0 "/api", Call.use 0 ["log"], Call.group 1 "/v1", Call.use 1 ["auth"],
      Call.use 2 ["v1"]]
    _ 0 2 rfl
    (IsAncestor.step
      (show _ = some (⟨"/api/v1", ["v1"], some 1⟩ : RouterGroup String) from rfl) rfl
      (IsAncestor.parent
        (show _ = some (⟨"/api", ["auth"], some 0⟩ : RouterGroup String) from rfl) rfl))

/-! ### The handler chain -/

theorem runSteps_handlers (nx : Context Event → Context Event)
    (hnx : ∀ c, (nx c).handlers = c.handlers) :
    ∀ (h : Handler Event) (c : Context Event), (runSteps nx h c).handlers = c.handlers := by
  intro h
  induction h with
  | nil => intro c; rfl
  | cons st rest ih =>
    intro c
    cases st with
    | record e => exact ih _
    | next => exact (ih (nx c)).trans (hnx c)

theorem runSteps_congr (H : List (Handler Event)) (nx1 nx2 : Context Event → Context Event)
    (hnx : ∀ c, (nx1 c).handlers = c.handlers)
    (heq : ∀ c, c.handlers = H → nx1 c = nx2 c) :
    ∀ (h : Handler Event) (c : Context Event), c.handlers = H →
      runSteps nx1 h c = runSteps nx2 h c := by
  intro h
  induction h with
  | nil => intro c _; rfl
  | cons st rest ih =>
    intro c hc
    cases st with
    | record e => exact ih _ hc
    | next =>
      simp only [runSteps]
      rw [← heq c hc]
      exact ih _ ((hnx c).trans hc)

/-- The chain is not changed by a run. -/
theorem invoke_handlers : ∀ (budget i : Nat) (c : Context Event),
    (invoke budget i c).handlers = c.handlers := by
  intro budget
  induction budget with
  | zero => intro i c; rfl
  | succ budget ih =>
    intro i c
    rw [invoke]
    split
    · rfl
    · next h _ =>
      exact runSteps_handlers (invoke budget (i + 1)) (ih (i + 1)) h
        { c with invoked := c.invoked ++ [i] }

/-- A budget that covers the handlers from the cursor on is never used up: a larger one gives
the same result. -/
theorem invoke_budget : ∀ (budget i : Nat) (c : Context Event),
    c.handlers.length ≤ budget + i → invoke (budget + 1) i c = invoke budget i c := by
  intro budget
  induction budget with
  | zero =>
    intro i c hc
    have hnone : c.handlers[i]? = none := List.getElem?_eq_none (by omega)
    simp only [invoke, hnone]
  | succ budget ih =>
    intro i c hc
    rw [invoke, invoke]
    split
    · rfl
    · next h _ =>
      refine runSteps_congr c.handlers (invoke (budget + 1) (i + 1)) (invoke budget (i + 1))
        (invoke_handlers (budget + 1) (i + 1)) ?_ h { c with invoked := c.invoked ++ [i] } rfl
      intro c1 hc1
      apply ih
      rw [hc1]
      omega

theorem invoke_budget_add (budget i : Nat) (c : Context Event)
    (hc : c.handlers.length ≤ budget + i) :
    ∀ extra : Nat, invoke (budget + extra) i c = invoke budget i c := by
  intro extra
  induction extra with
  | zero => rfl
  | succ extra ih =>
    rw [← Nat.add_assoc, invoke_budget (budget + extra) i c (by omega), ih]

/-- The budget `dispatch` gives is never used up: any larger budget gives the same run. -/
theorem dispatch_budget (handlers : List (Handler Event)) (extra : Nat) :
    invoke (handlers.length + extra) 0 { handlers := handlers, events := [], invoked := [] }
      = dispatch handlers :=
  invoke_budget_add handlers.length 0
    { handlers := handlers, events := [], invoked := [] } (Nat.le_refl _) extra

theorem onion_cons (m : Event × Event) (ms : List (Event × Event)) (h : Event) :
    onion (m :: ms) h = [Step.record m.1, Step.next, Step.record m.2] :: onion ms h := rfl

theorem onion_length (ms : List (Event × Event)) (h : Event) :
    (onion ms h).length = ms.length + 1 := by
  simp [onion]

/-- The run of the onion from any position of a chain that ends with it. -/
theorem onion_invoke (h : Event) : ∀ (ms : List (Event × Event)) (done : List (Handler Event))
    (budget : Nat) (c : Context Event), c.handlers = done ++ onion ms h →
      ms.length + 1 ≤ budget →
      invoke budget done.length c
        = { handlers := c.handlers,
            events := c.events ++ ms.map Prod.fst ++ [h] ++ (ms.map Prod.snd).reverse,
            invoked := c.invoked ++ List.range' done.length (ms.length + 1) } := by
  intro ms
  induction ms with
  | nil =>
    intro done budget c hc hb
    obtain ⟨b, rfl⟩ : ∃ b, budget = b + 1 := ⟨budget - 1, by simp at hb; omega⟩
    have hget : c.handlers[done.length]? = some [Step.record h] := by
      rw [hc]
      exact List.getElem?_concat_length _ _
    rw [invoke, hget]
    simp [runSteps]
  | cons m ms ih =>
    intro done budget c hc hb
    obtain ⟨b, rfl⟩ : ∃ b, budget = b + 1 := ⟨budget - 1, by simp at hb; omega⟩
    have hget : c.handlers[done.length]?
        = some [Step.record m.1, Step.next, Step.record m.2] := by
      rw [hc, onion_cons, List.getElem?_append_right (Nat.le_refl _), Nat.sub_self]
      simp
    have hrec := ih (done ++ [[Step.record m.1, Step.next, Step.record m.2]]) b
      { handlers := c.handlers, events := c.events ++ [m.1],
        invoked := c.invoked ++ [done.length] }
      (by rw [hc, onion_cons]; simp)
      (by simp at hb ⊢; omega)
    have hlen : (done ++ [[Step.record m.1, Step.next, Step.record m.2]]).length
        = done.length + 1 := by simp
    rw [hlen] at hrec
    rw [invoke, hget]
    simp only [runSteps]
    rw [hrec]
    simp only [Context.mk.injEq, List.length_cons, List.map_cons, List.reverse_cons, true_and]
    refine ⟨by simp, ?_⟩
    rw [List.append_assoc]
    congr 1

/-- C12 (onion ordering).  For every chain of middlewares `m1..mk`, each recording a `pre`
event, calling `Next` once and recording a `post` event, followed by a route handler that
records `H`, the run of the chain records exactly `m1-pre, ..., mk-pre, H, mk-post, ...,
m1-post`, and invokes each handler exactly once, in order.  For instance `A`, `B`, `H` give
`A-pre, B-pre, H, B-post, A-post`. -/
theorem onion_ordering (ms : List (Event × Event)) (h : Event) :
    (dispatch (onion ms h)).events
      = ms.map Prod.fst ++ [h] ++ (ms.map Prod.snd).reverse ∧
    (dispatch (onion ms h)).invoked = List.range (ms.length + 1) ∧
    (dispatch (onion [("A-pre", "A-post"), ("B-pre", "B-post")] "H")).events
      = ["A-pre", "B-pre", "H", "B-post", "A-post"] := by
  have hrun := onion_invoke h ms [] (onion ms h).length
    { handlers := onion ms h, events := [], invoked := [] } rfl
    (by rw [onion_length])
  unfold dispatch
  have hzero : ([] : List (Handler Event)).length = 0 := rfl
  rw [hzero] at hrun
  rw [hrun]
  refine ⟨by simp, ?_, by decide⟩
  simp [List.range_eq_range']

/-! ### Handlers that do not call `Next` -/

end Gee
